import Mathlib

/-!
# Verification of the `wintree` matcher and tree renderer

A shallow embedding, in Lean 4, of the core logic of the `wintree`
command-line tool (`cmd/root.go`): brace-pattern expansion, glob matching
(Go's `path/filepath.Match` on Unix), the filtered directory walk
(`findMatchingFiles` over `filepath.WalkDir`), and the tree renderer
(`buildTreeOutput`).

Strings are modelled by Lean `String` at the interface and `List Char`
internally.  Go indexes strings by byte; all comparisons performed by the
program are equality tests, prefix tests and lexicographic sorting, and on
UTF-8 encoded text those agree with the corresponding code-point-wise
operations on `List Char` (UTF-8 preserves code-point order), so the
embedding works with characters throughout.

The file-system is modelled by an inductive tree; a directory node carries
an optional read error, which makes `os.ReadDir` fail with that error when
the walk reaches the node (this is how `filepath.WalkDir` reports a
traversal error for an entry).  A missing root is modelled separately,
mirroring the `os.Lstat` failure at the top of `filepath.WalkDir`.
-/

set_option autoImplicit false

namespace Wintree

/-! ## Basic string helpers (Go `strings` package) -/

/-- Go `unicode.IsSpace`: the white-space code points recognised by
`strings.TrimSpace`. -/
def goIsSpace (c : Char) : Bool :=
  c = ' ' ∨ c = '\t' ∨ c = '\n' ∨ c = (Char.ofNat 11) ∨ c = (Char.ofNat 12) ∨
  c = '\r' ∨ c = (Char.ofNat 0x85) ∨ c = (Char.ofNat 0xA0) ∨
  c = (Char.ofNat 0x1680) ∨
  ((Char.ofNat 0x2000) ≤ c ∧ c ≤ (Char.ofNat 0x200A)) ∨
  c = (Char.ofNat 0x2028) ∨ c = (Char.ofNat 0x2029) ∨
  c = (Char.ofNat 0x202F) ∨ c = (Char.ofNat 0x205F) ∨
  c = (Char.ofNat 0x3000)

/-- `strings.TrimSpace`: drop white space from both ends. -/
def goTrimSpace (s : List Char) : List Char :=
  ((s.dropWhile goIsSpace).reverse.dropWhile goIsSpace).reverse

/-- `strings.Split(s, sep)` for a one-character separator: split on every
occurrence; the empty string splits to `[""]`. -/
def splitOnChar (sep : Char) : List Char → List (List Char)
  | [] => [[]]
  | c :: rest =>
    if c = sep then [] :: splitOnChar sep rest
    else
      match splitOnChar sep rest with
      | [] => [[c]]
      | g :: gs => (c :: g) :: gs

/-- `strings.Replace(s, old, new, 1)`: replace the first occurrence of
`old` in `s` by `new` (for empty `old`, Go inserts at the start). -/
def replaceFirst (s old new : List Char) : List Char :=
  if old.isEmpty then new ++ s
  else
    match s with
    | [] => []
    | c :: rest =>
      if old.isPrefixOf (c :: rest) then new ++ (c :: rest).drop old.length
      else c :: replaceFirst rest old new

/-- `strings.Count(s, "/")` for the path separator: the number of
separator characters. -/
def countSep (s : List Char) : Nat := s.count '/'

/-! ## Brace expansion (`expandBraces`, `cmd/root.go` lines 118–141)

The source finds the first match of the regular expression
`\{([^}]*)\}` with `FindStringSubmatch`.  A match of that expression must
begin at a `{`; the leftmost match therefore begins at the first `{` of
the pattern, and its group extends to the first `}` after it (the class
`[^}]*` cannot cross a `}`).  If the first `{` has no `}` after it, no
later `{` has one either, and there is no match. -/

/-- The first match of `\{([^}]*)\}` in `s`: `some (whole, inner)` where
`whole = "{" ++ inner ++ "}"` (`matches[0]` and `matches[1]` in the
source), or `none` when the pattern has no brace group. -/
def findBraceMatch (s : List Char) : Option (List Char × List Char) :=
  let t := s.dropWhile (· ≠ '{')
  if t.isEmpty then none
  else
    let afterBrace := t.tail
    let inner := afterBrace.takeWhile (· ≠ '}')
    if (afterBrace.dropWhile (· ≠ '}')).isEmpty then none
    else some ('{' :: inner ++ ['}'], inner)

/-- `expandBraces` (`cmd/root.go` 119–141): expand one brace group such as
`*.{go,js}` into `["*.go", "*.js"]`.  No group: the pattern itself; empty
group: the group text is removed; otherwise the group's content is split
on commas, each option is trimmed and substituted for the group. -/
def expandBraces (pattern : String) : List String :=
  match findBraceMatch pattern.data with
  | none => [pattern]
  | some (whole, inner) =>
    if inner.isEmpty then [⟨replaceFirst pattern.data whole []⟩]
    else
      (splitOnChar ',' inner).map
        (fun option => ⟨replaceFirst pattern.data whole (goTrimSpace option)⟩)

/-! ## Path functions: Go `path/filepath` on Unix

On Unix `filepath.Clean`, `Base`, `Dir`, `Join` and `Rel` work on plain
`/`-separated paths (the volume name is always empty), which is what the
definitions below implement, following the Go sources. -/

/-- The element-copy and `..` back-tracking steps of `Clean`'s loop, on the
output buffer kept in reverse.  Go: `out.w--; for out.w > dotdot &&
out.index(out.w) != '/' { out.w-- }` — drop the last output character, then
keep dropping while the length stays above `dotdot` and the character just
dropped is not a separator. -/
def cleanBacktrack (dotdot : Nat) : List Char → List Char
  | [] => []
  | c :: rest => if rest.length > dotdot ∧ c ≠ '/' then cleanBacktrack dotdot rest else rest

/-- The main loop of `path.Clean` (invoked by `filepath.Clean` and by
`filepath.Dir`/`Join`), processing the remaining input with the output
buffer in reverse and the `dotdot` backtrack floor.  The fuel argument
only bounds the iteration (every step consumes at least one input
character, so `goCleanL` passes the input length). -/
def cleanLoop (rooted : Bool) : Nat → List Char → List Char → Nat → List Char
  | 0, _, outRev, _ => outRev
  | _ + 1, [], outRev, _ => outRev
  | fuel + 1, c :: rest, outRev, dotdot =>
    if c = '/' then
      -- empty path element
      cleanLoop rooted fuel rest outRev dotdot
    else if c = '.' ∧ (rest.isEmpty ∨ rest.head? = some '/') then
      -- `.` element: skip the dot (a following separator is handled next)
      cleanLoop rooted fuel rest outRev dotdot
    else if c = '.' ∧ rest.head? = some '.' ∧
        (rest.tail.isEmpty ∨ rest.tail.head? = some '/') then
      -- `..` element: consume both dots, then backtrack or emit `..`
      if outRev.length > dotdot then
        cleanLoop rooted fuel rest.tail (cleanBacktrack dotdot outRev) dotdot
      else if rooted then cleanLoop rooted fuel rest.tail outRev dotdot
      else
        -- cannot backtrack: emit a literal `..` and raise the floor
        let outRev' := '.' :: '.' :: (if outRev.isEmpty then outRev else '/' :: outRev)
        cleanLoop rooted fuel rest.tail outRev' outRev'.length
    else
      -- a real element: append a separator when needed, then copy the
      -- element (`c` and everything up to the next separator)
      let seg := c :: rest.takeWhile (· ≠ '/')
      let rest' := rest.dropWhile (· ≠ '/')
      let sep : Bool := (rooted ∧ outRev.length ≠ 1) ∨ (¬ rooted ∧ outRev.length ≠ 0)
      cleanLoop rooted fuel rest' (seg.reverse ++ (if sep then '/' :: outRev else outRev)) dotdot

/-- `filepath.Clean` on Unix (`path.Clean`): the shortest equivalent path,
with `.`/`..` elements and repeated separators resolved; the empty path
cleans to `.`. -/
def goCleanL (p : List Char) : List Char :=
  match p with
  | [] => ['.']
  | c :: rest =>
    let rooted := c = '/'
    let outRev₀ : List Char := if rooted then ['/'] else []
    let rem := if rooted then rest else c :: rest
    let out := (cleanLoop rooted rem.length rem outRev₀ (if rooted then 1 else 0)).reverse
    if out.isEmpty then ['.'] else out

/-- `filepath.Base` on Unix: strip trailing separators, then keep what
follows the last separator; all-separator paths give `/`, the empty path
gives `.`. -/
def goBaseL (p : List Char) : List Char :=
  match p with
  | [] => ['.']
  | _ =>
    let stripped := (p.reverse.dropWhile (· = '/'))
    let base := stripped.takeWhile (· ≠ '/')
    if base.isEmpty then ['/'] else base.reverse

/-- `filepath.Dir` on Unix: everything up to and including the final
separator, cleaned; `.` when there is no separator. -/
def goDirL (p : List Char) : List Char :=
  goCleanL (p.reverse.dropWhile (· ≠ '/')).reverse

/-- `filepath.Join` of two elements on Unix: empty elements are dropped
and the joined string is cleaned (an all-empty join gives the empty
string, uncleaned). -/
def goJoinL (a b : List Char) : List Char :=
  if a.isEmpty then (if b.isEmpty then [] else goCleanL b)
  else if b.isEmpty then goCleanL a
  else goCleanL (a ++ '/' :: b)

/-- The common-prefix loop of `filepath.Rel`: strip the longest common
leading sequence of path elements from the cleaned base and target,
returning the remainders (Go positions `base[b0:]` and `targ[t0:]`).
The fuel is bounded by the combined length (every iteration that does not
return consumes at least one character). -/
def relStrip : Nat → List Char → List Char → (List Char × List Char)
  | 0, b, t => (b, t)
  | fuel + 1, b, t =>
    let bseg := b.takeWhile (· ≠ '/')
    let tseg := t.takeWhile (· ≠ '/')
    if bseg = tseg then
      let brest := b.dropWhile (· ≠ '/')
      let trest := t.dropWhile (· ≠ '/')
      if brest.isEmpty ∧ trest.isEmpty then ([], [])
      else relStrip fuel (brest.drop 1) (trest.drop 1)
    else (b, t)

/-- `filepath.Rel(basepath, targpath)` on Unix: `none` models the error
return.  Follows the Go source: clean both, handle the equal and the
`.`-base cases, require agreement on rootedness, strip the common element
prefix, refuse a remaining `..` base element, and build the `..`-climb. -/
def goRelL (basepath targpath : List Char) : Option (List Char) :=
  let base₀ := goCleanL basepath
  let targ := goCleanL targpath
  if targ = base₀ then some ['.']
  else
    let base := if base₀ = ['.'] then [] else base₀
    let baseSlashed := base.head? = some '/'
    let targSlashed := targ.head? = some '/'
    if baseSlashed ≠ targSlashed then none
    else
      let st := relStrip (base.length + targ.length + 1) base targ
      let brem := st.1
      let trem := st.2
      if brem.takeWhile (· ≠ '/') = ['.', '.'] then none
      else if ¬ brem.isEmpty then
        let seps := countSep brem
        some (('.' :: '.' :: (List.range seps).flatMap (fun _ => ['/', '.', '.'])) ++
          (if trem.isEmpty then [] else '/' :: trem))
      else some trem

/-! ## Glob matching: Go `path/filepath.Match` on Unix

`findMatchingFiles` matches entry names with `filepath.Match(pattern,
name)` and always discards the returned error (`matched, _ :=` …), so the
embedding `goMatch` produces the `matched` boolean, with `false` whenever
Go would report `ErrBadPattern`.  The structure below follows the Go
source: `scanChunk` splits the pattern into a starred chunk and a rest,
`matchChunk` consumes one chunk (literal characters, `?`, `\`-escapes and
`[...]` classes with `^` negation and `-` ranges), and the main loop
back-tracks over `*`.  On Unix the separator is `/` and `\` escapes. -/

/-- Result of `matchChunk`: bad pattern (`ErrBadPattern`), failed match, or
success with the rest of the name. -/
inductive ChunkRes where
  | bad
  | failed
  | ok (rest : List Char)
deriving Repr, DecidableEq

/-- `getEsc`: read one (possibly `\`-escaped) character of a `[...]` class.
`none` is `ErrBadPattern` (empty chunk, stray `-` or `]`, trailing `\`,
or nothing left after the character). -/
def getEsc : List Char → Option (Char × List Char)
  | [] => none
  | '-' :: _ => none
  | ']' :: _ => none
  | '\\' :: rest =>
    match rest with
    | [] => none
    | r :: rest' => if rest'.isEmpty then none else some (r, rest')
  | r :: rest => if rest.isEmpty then none else some (r, rest)

/-- The range loop of `matchChunk`'s `[...]` case: parse ranges until a
closing `]` (which only closes once at least one range was read), testing
the already-consumed name character `r` against each `lo-hi` range.
Returns the chunk after `]` and whether `r` matched; `none` is
`ErrBadPattern`.  The fuel is bounded by the chunk length (`getEsc`
consumes at least one character). -/
def matchRanges (r : Char) : Nat → List Char → Nat → Bool → Option (List Char × Bool)
  | 0, _, _, _ => none
  | fuel + 1, chunk, nrange, acc =>
    match chunk with
    | ']' :: rest =>
      if nrange > 0 then some (rest, acc)
      else
        match getEsc chunk with
        | none => none
        | some (lo, chunk₁) => matchRangesStep r fuel lo chunk₁ nrange acc
    | _ =>
      match getEsc chunk with
      | none => none
      | some (lo, chunk₁) => matchRangesStep r fuel lo chunk₁ nrange acc
where
  /-- One range: after its low end `lo`, read an optional `-hi`, then test
  `lo ≤ r ≤ hi` and continue the loop. -/
  matchRangesStep (r : Char) (fuel : Nat) (lo : Char) (chunk₁ : List Char)
      (nrange : Nat) (acc : Bool) : Option (List Char × Bool) :=
    match chunk₁ with
    | '-' :: chunk₂ =>
      match getEsc chunk₂ with
      | none => none
      | some (hi, chunk₃) =>
        matchRanges r fuel chunk₃ (nrange + 1) (acc || (decide (lo ≤ r) && decide (r ≤ hi)))
    | _ => matchRanges r fuel chunk₁ (nrange + 1) (acc || (decide (lo ≤ r) && decide (r ≤ lo)))

/-- `matchChunk(chunk, s)`: match the chunk against the beginning of `s`.
`failed` records a failed match while the rest of the chunk is still
checked for well-formedness, exactly as in the Go source. -/
def matchChunk : Nat → List Char → List Char → Bool → ChunkRes
  | 0, _, _, _ => .bad
  | _ + 1, [], s, failed => if failed then .failed else .ok s
  | fuel + 1, c :: rest, s, failed₀ =>
    -- `if !failed && len(s) == 0 { failed = true }`
    let failed := failed₀ || s.isEmpty
    match c with
    | '[' =>
      -- consume one name character when not failed (Go leaves r = 0 otherwise)
      let rs : Char × List Char :=
        match failed, s with
        | false, x :: xs => (x, xs)
        | _, _ => (Char.ofNat 0, s)
      -- possibly negated
      let ns : Bool × List Char :=
        match rest with
        | '^' :: rest' => (true, rest')
        | _ => (false, rest)
      match matchRanges rs.1 (ns.2.length + 1) ns.2 0 false with
      | none => .bad
      | some (rest', matched) =>
        matchChunk fuel rest' rs.2 (failed || (matched == ns.1))
    | '?' =>
      match failed, s with
      | false, x :: xs => matchChunk fuel rest xs (x == '/')
      | _, _ => matchChunk fuel rest s failed
    | '\\' =>
      match rest with
      | [] => .bad
      | c' :: rest' =>
        match failed, s with
        | false, x :: xs => matchChunk fuel rest' xs (c' != x)
        | _, _ => matchChunk fuel rest' s failed
    | _ =>
      match failed, s with
      | false, x :: xs => matchChunk fuel rest xs (c != x)
      | _, _ => matchChunk fuel rest s failed

/-- `scanChunk`'s star-stripping prefix loop. -/
def dropStars : List Char → Bool × List Char
  | '*' :: rest => (true, (dropStars rest).2)
  | p => (false, p)

/-- `scanChunk`'s scan: collect the chunk up to the next unbracketed `*`
(a `\` takes the following character with it when one exists). -/
def scanChunkBody (inrange : Bool) : List Char → List Char × List Char
  | [] => ([], [])
  | c :: rest =>
    if c = '\\' then
      match rest with
      | [] => (['\\'], [])
      | c' :: rest' =>
        let p := scanChunkBody inrange rest'
        ('\\' :: c' :: p.1, p.2)
    else if c = '[' then
      let p := scanChunkBody true rest
      (c :: p.1, p.2)
    else if c = ']' then
      let p := scanChunkBody false rest
      (c :: p.1, p.2)
    else if c = '*' ∧ inrange = false then ([], c :: rest)
    else
      let p := scanChunkBody inrange rest
      (c :: p.1, p.2)

mutual
/-- The `Pattern:` loop of `filepath.Match`, returning the `matched`
boolean (the error is discarded by every caller in the program, so a bad
pattern yields `false`, like Go's `return false, err`). -/
def goMatchLoop : Nat → List Char → List Char → Bool
  | 0, _, _ => false
  | fuel + 1, pattern, name =>
    match pattern with
    | [] => name.isEmpty
    | _ :: _ =>
      let sp := dropStars pattern
      let cr := scanChunkBody false sp.2
      let star := sp.1
      let chunk := cr.1
      let rest := cr.2
      if star ∧ chunk.isEmpty then
        -- trailing `*` matches the rest of the name unless it has a separator
        ¬ name.contains '/'
      else
        match matchChunk (chunk.length + 1) chunk name false with
        | .ok t =>
          if t.isEmpty ∨ ¬ rest.isEmpty then goMatchLoop fuel rest t
          else if star then starLoop fuel chunk rest name
          else false
        | .bad => false
        | .failed => if star then starLoop fuel chunk rest name else false

/-- The `*` back-tracking loop: try to match the chunk at every later
position of the name, stopping at a separator. -/
def starLoop : Nat → List Char → List Char → List Char → Bool
  | 0, _, _, _ => false
  | fuel + 1, chunk, rest, name =>
    match name with
    | [] => false
    | c :: tail =>
      if c = '/' then false
      else
        match matchChunk (chunk.length + 1) chunk tail false with
        | .ok t =>
          if rest.isEmpty ∧ ¬ t.isEmpty then starLoop fuel chunk rest tail
          else goMatchLoop fuel rest t
        | .bad => false
        | .failed => starLoop fuel chunk rest tail
end

/-- `filepath.Match(pattern, name)` with the error discarded, as used at
every call site of the program (`matched, _ := filepath.Match(…)`). -/
def goMatch (pattern name : String) : Bool :=
  goMatchLoop (pattern.data.length + name.data.length + 1) pattern.data name.data

/-- The filter configuration (`type filter`, `cmd/root.go` 38–41). -/
structure Filter where
  excludeGlobs : List String
  includeGlobs : List String
deriving Repr, DecidableEq

/-- `processFilters` (`cmd/root.go` 143–160): brace-expand every pattern of
both lists, preserving order. -/
def processFilters (excl incl : List String) : Filter :=
  { excludeGlobs := (excl.map expandBraces).flatten
    includeGlobs := (incl.map expandBraces).flatten }

end Wintree



namespace Wintree

/-! ## The file-system model and `filepath.WalkDir`

`findMatchingFiles` (`cmd/root.go` 162–268) traverses the tree with
`filepath.WalkDir`, whose behaviour (from the Go sources) the walk below
reproduces:

* the callback is invoked on every entry, root first, then (for
  directories) on the children in order (`os.ReadDir` returns them sorted;
  the model takes the `children` list as that enumeration);
* a callback error aborts the whole walk with that error, except that
  `fs.SkipDir` on a directory skips its children, and `fs.SkipDir` on a
  file stops the enumeration of the remaining entries of its parent;
* when a directory's entries cannot be read, the callback is invoked a
  second time for it with the error (`readErr` in the model); the children
  are not visited;
* a root that cannot be stat-ed (`RootFS.missing`) makes `WalkDir` call
  the callback once with the error and a nil entry.

`maxDepth` is a package-level variable in the source; it is passed
explicitly here.  Go's `findMatchingFiles` returns the collected paths
*and* an error; its only caller discards the paths when the error is
non-nil, so the walk is modelled with `Except`. -/

mutual
/-- A file-system entry: a file, or a directory with its enumerated
children and an optional directory-read error. -/
inductive FSEntry where
  | file (name : String)
  | dir (name : String) (readErr : Option String) (children : FSList)

/-- A directory's children, in enumeration order (`os.ReadDir` returns
them sorted by name). -/
inductive FSList where
  | nil
  | cons (child : FSEntry) (rest : FSList)
end

/-- The entry's base name (`d.Name()`). -/
def FSEntry.name : FSEntry → String
  | .file n => n
  | .dir n _ _ => n

/-- `d.IsDir()`. -/
def FSEntry.isDir : FSEntry → Bool
  | .file _ => false
  | .dir _ _ _ => true

/-- The file system at the root path: either the entry found there, or the
`os.Lstat` error for a missing/unreadable root. -/
inductive RootFS where
  | missing (e : String)
  | present (entry : FSEntry)

/-- The error text Go's `filepath.Rel` reports (modulo contraction). -/
def relErrMsg (root path : String) : String :=
  "Rel: cannot make " ++ path ++ " relative to " ++ root

/-- `filepath.Rel` on `String`s, with the Go error text. -/
def goRel (root path : String) : Except String String :=
  match goRelL root.data path.data with
  | none => .error (relErrMsg root path)
  | some r => .ok ⟨r⟩

/-- `filepath.Join` on `String`s. -/
def goJoin (a b : String) : String := ⟨goJoinL a.data b.data⟩

/-- `filepath.Base` on `String`s. -/
def goBase (p : String) : String := ⟨goBaseL p.data⟩

/-- `filepath.Dir` on `String`s. -/
def goDir (p : String) : String := ⟨goDirL p.data⟩

/-- Number of path separators in a `String` (`strings.Count(s, "/")`). -/
def countSepS (s : String) : Nat := countSep s.data

mutual
/-- The directory-whitelist sub-walk (`cmd/root.go` 223–238): collect
every file under the entry whose base name matches no exclude pattern.
The sub-walk's callback ignores the error argument and does nothing for
directories, so a directory-read error inside it is swallowed (its
children are simply not enumerated) and the sub-walk itself never fails. -/
def subWalkFiles (excl : List String) (path : String) : FSEntry → List String
  | .file n => if excl.any (fun pat => goMatch pat n) then [] else [path]
  | .dir _ (some _) _ => []
  | .dir _ none cs => subWalkList excl path cs

/-- The sub-walk over a directory's children, in enumeration order. -/
def subWalkList (excl : List String) (path : String) : FSList → List String
  | .nil => []
  | .cons c cs => subWalkFiles excl (goJoin path c.name) c ++ subWalkList excl path cs
end

/-- Outcome of one callback invocation: continue (`return nil`),
`fs.SkipDir`, or an error — together with the paths the callback appended
to `matchingPaths`. -/
inductive CbOut where
  | next (added : List String)
  | skip (added : List String)
  | err (e : String)
deriving Repr, DecidableEq

/-- The walk callback of `findMatchingFiles` (`cmd/root.go` 166–264),
invoked with a nil error argument: depth pruning for directories, then
exclusion by base name, then the non-include-mode file collection, then
the include-mode directory whitelist and file glob whitelist. -/
def walkCb (root : String) (f : Filter) (maxD : Int) (path : String) (e : FSEntry) : CbOut :=
  let entryName := e.name
  -- Depth check (before exclusion / inclusion)
  let depthChecked : Option CbOut :=
    if e.isDir ∧ path ≠ root then
      match goRel root path with
      | .error er => some (.err er)
      | .ok relPath =>
        if maxD ≠ -1 ∧ (countSepS relPath : Int) > maxD then some (.skip []) else none
    else none
  match depthChecked with
  | some out => out
  | none =>
    -- Exclusion logic (runs first)
    if f.excludeGlobs.any (fun pat => goMatch pat entryName) then
      if e.isDir then (if path = root then .next [] else .skip []) else .next []
    else
      -- If not in include mode, add all non-directory files (within depth)
      if f.includeGlobs.isEmpty ∧ ¬ e.isDir then
        match goRel root path with
        | .error er => .err er
        | .ok relPath =>
          if maxD = -1 ∨ (countSepS relPath : Int) < maxD + 1 then .next [path]
          else .next []
      else if ¬ f.includeGlobs.isEmpty then
        if e.isDir then
          -- Case 1: a directory whose name equals an include pattern
          if f.includeGlobs.any (fun pat => entryName = pat) then
            .skip (subWalkFiles f.excludeGlobs path e)
          else .next []
        else
          -- Case 2: a file matching a glob include pattern
          if f.includeGlobs.any (fun pat => goMatch pat entryName) then
            match goRel root path with
            | .error er => .err er
            | .ok relPath =>
              if maxD = -1 ∨ (countSepS relPath : Int) < maxD + 1 then .next [path]
              else .next []
          else .next []
      else .next []

/-- Outcome of `walkDir` on one entry: normal completion, `fs.SkipDir`
propagated to the parent loop (only possible for files), or an error —
with the paths collected beneath the entry. -/
inductive WalkOut where
  | ok (paths : List String)
  | skipAfter (paths : List String)
  | fail (e : String)
deriving Repr, DecidableEq

mutual
/-- `walkDir(path, d, walkDirFn)` specialised to the callback above:
invoke the callback; on `SkipDir` skip a directory's children (a file
propagates the skip to the parent loop); on an error abort; otherwise
enumerate the children, reporting a read error through a second callback
invocation — which, in this callback, returns the error (`cmd/root.go`
167–169) and thus aborts the walk. -/
def walkEntry (root : String) (f : Filter) (maxD : Int) (path : String) : FSEntry → WalkOut
  | .file n =>
    match walkCb root f maxD path (.file n) with
    | .err er => .fail er
    | .skip added => .skipAfter added
    | .next added => .ok added
  | .dir n er cs =>
    match walkCb root f maxD path (.dir n er cs) with
    | .err e₂ => .fail e₂
    | .skip added => .ok added
    | .next added =>
      match er with
      | some e₂ => .fail e₂
      | none =>
        match walkList root f maxD path cs with
        | .fail e₂ => .fail e₂
        | .ok ps => .ok (added ++ ps)
        | .skipAfter ps => .ok (added ++ ps)

/-- The loop over a directory's entries: a child's `SkipDir` breaks the
loop (keeping what was collected); an error aborts. -/
def walkList (root : String) (f : Filter) (maxD : Int) (path : String) : FSList → WalkOut
  | .nil => .ok []
  | .cons c cs =>
    match walkEntry root f maxD (goJoin path c.name) c with
    | .fail er => .fail er
    | .skipAfter ps => .ok ps
    | .ok ps =>
      match walkList root f maxD path cs with
      | .fail er => .fail er
      | .ok ps' => .ok (ps ++ ps')
      | .skipAfter ps' => .ok (ps ++ ps')
end

/-- `findMatchingFiles(root, f)` (`cmd/root.go` 162–268) at a given
`maxDepth`: walk the tree from the root and return the matching paths, or
the traversal error (the caller discards the partially collected paths
when the error is non-nil). -/
def findMatchingFiles (root : String) (fsys : RootFS) (f : Filter) (maxD : Int) :
    Except String (List String) :=
  match fsys with
  | .missing e => .error e
  | .present entry =>
    match walkEntry root f maxD root entry with
    | .fail er => .error er
    | .ok ps => .ok ps
    | .skipAfter ps => .ok ps

end Wintree

namespace Wintree

/-! ## The tree renderer (`buildTreeOutput`, `cmd/root.go` 270–365)

The renderer collects every matched path (with the root as a string
prefix) and its ancestor directories into `nodes`, a `map[string]bool`
used as a set — modelled by a `Finset String` — then sorts the keys with
`sort.Strings` and prints them.  `sort.Strings` orders by bytes; on UTF-8
text that is code-point order, which is Lean's `String` linear order, so
the sorted key list is `Finset.sort (· ≤ ·)`. -/

/-- Insertion into the node set (`nodes[key] = true` on a
`map[string]bool`): the key list keeps the distinct keys, here in first-
insertion order. -/
def addKey (a : String) (l : List String) : List String :=
  if a ∈ l then l else l ++ [a]

/-- The ancestor loop of `buildTreeOutput` (`cmd/root.go` 292–296):
`dir := filepath.Dir(path); for dir != root && dir != "." && dir != "/"
{ nodes[dir] = true; dir = filepath.Dir(dir) }`, inserting into the
accumulated key list.  The fuel argument only bounds the iteration: every
iteration that continues strictly shortens `dir` (`filepath.Dir` of a
string containing a separator is shorter than the string unless it is
`/`, a stop state, and otherwise yields `.`, a stop state), so
`p.length + 2` iterations always reach a stop state. -/
def ancestorKeys (root : String) : Nat → String → List String → List String
  | 0, _, acc => acc
  | n + 1, dir, acc =>
    if dir ≠ root ∧ dir ≠ "." ∧ dir ≠ "/" then
      ancestorKeys root n (goDir dir) (addKey dir acc)
    else acc

/-- The node-collection loop of `buildTreeOutput` (`cmd/root.go` 277–297):
the root is always a node; every path with the root as a string prefix
(`strings.HasPrefix(path, root)`; others are skipped) is added along with
its ancestor directories. -/
def nodeKeys (root : String) (paths : List String) : List String :=
  paths.foldl
    (fun acc p =>
      if root.data.isPrefixOf p.data then
        ancestorKeys root (p.length + 2) (goDir p) (addKey p acc)
      else acc)
    [root]

/-- Lexicographic comparison of character lists: `sort.Strings` orders by
bytes, which on UTF-8 text is code-point order. -/
def charListLe : List Char → List Char → Bool
  | [], _ => true
  | _ :: _, [] => false
  | a :: as, b :: bs => if a < b then true else if b < a then false else charListLe as bs

/-- The `sort.Strings` order on strings. -/
def strLe (a b : String) : Prop := charListLe a.data b.data = true

instance : DecidableRel strLe := fun _ _ => inferInstanceAs (Decidable (_ = true))

/-- The sorted node list (`cmd/root.go` 299–304): the distinct keys of the
node map in ascending `sort.Strings` order (modelled by insertion sort,
which agrees with any sort of the keys). -/
def sortedNodes (root : String) (paths : List String) : List String :=
  List.insertionSort strLe (nodeKeys root paths)

/-- The render loop of `buildTreeOutput` (`cmd/root.go` 315–362) over the
remaining sorted nodes, with `lastInDir` as a map from depth to flag
(absent keys read `false`).  A node whose `filepath.Rel` fails is skipped
(`continue`); `isLast` is cleared only when the next sorted node has the
same depth, both relative paths have more than one segment, and the first
segments agree; the indentation uses the updated `lastInDir`. -/
def renderNodes (root : String) : List String → (Nat → Bool) → String
  | [], _ => ""
  | path :: rest, lastInDir =>
    match goRel root path with
    | .error _ => renderNodes root rest lastInDir
    | .ok relPath =>
      let parts := splitOnChar '/' relPath.data
      let depth := parts.length - 1
      let isLast : Bool :=
        match rest with
        | [] => true
        | next :: _ =>
          match goRel root next with
          | .error _ => true
          | .ok nextRel =>
            let nparts := splitOnChar '/' nextRel.data
            !(decide (nparts.length - 1 = depth) && decide (parts.length > 1) &&
              decide (nparts.length > 1) && decide (parts.head? = nparts.head?))
      let lastInDir' := fun k => if k = depth then isLast else lastInDir k
      let indent := String.join ((List.range depth).map
        (fun j => if lastInDir' j then "    " else "│   "))
      indent ++ (if isLast then "└── " else "├── ") ++ goBase path ++ "\n" ++
        renderNodes root rest lastInDir'

/-- `buildTreeOutput(root, paths)` (`cmd/root.go` 271–365): the root's
base name on the first line, then one line per remaining sorted node; an
empty path list yields just the root line. -/
def buildTreeOutput (root : String) (paths : List String) : String :=
  if paths.isEmpty then goBase root ++ "\n"
  else
    goBase root ++ "\n" ++
      renderNodes root ((sortedNodes root paths).drop 1) (fun _ => false)

/-- The node labels the render loop prints, in order: one
`filepath.Base(path)` per node that survives the `filepath.Rel` check
(each output line of the loop is indentation, a connector, and exactly
this base name). -/
def renderedNames (root : String) : List String → List String
  | [] => []
  | path :: rest =>
    match goRel root path with
    | .error _ => renderedNames root rest
    | .ok _ => goBase path :: renderedNames root rest

/-- The set of base names appearing in the rendered output: the root line's
name, plus the label of every line the render loop prints. -/
def outputBaseNames (root : String) (paths : List String) : Finset String :=
  if paths.isEmpty then {goBase root}
  else
    insert (goBase root)
      (renderedNames root ((sortedNodes root paths).drop 1)).toFinset

/-- The output phase of `rootCmd.RunE` (`cmd/root.go` 83–95): a traversal
error aborts with that error (no tree output); an empty include-mode
result prints the no-match notice; otherwise the rendered tree is the
output. -/
def runPipeline (root : String) (fsys : RootFS) (f : Filter) (maxD : Int) :
    Except String String :=
  match findMatchingFiles root fsys f maxD with
  | .error e => .error ("error finding files: " ++ e)
  | .ok files =>
    if ¬ f.includeGlobs.isEmpty ∧ files.isEmpty then
      .ok "No files found matching the given patterns.\n"
    else .ok (buildTreeOutput root files)

end Wintree

namespace Wintree

/-! ## Supporting lemmas on the string helpers -/

theorem dropWhile_append_of_all {p : Char → Bool} {pre rest : List Char}
    (h : ∀ c ∈ pre, p c) : (pre ++ rest).dropWhile p = rest.dropWhile p := by
  induction pre with
  | nil => rfl
  | cons c cs ih =>
    simp only [List.cons_append, List.dropWhile_cons]
    rw [if_pos (h c (by simp)), ih (fun c hc => h c (by simp [hc]))]

theorem takeWhile_append_of_all {p : Char → Bool} {pre rest : List Char}
    (h : ∀ c ∈ pre, p c) : (pre ++ rest).takeWhile p = pre ++ rest.takeWhile p := by
  induction pre with
  | nil => rfl
  | cons c cs ih =>
    simp only [List.cons_append, List.takeWhile_cons]
    rw [if_pos (h c (by simp)), ih (fun c hc => h c (by simp [hc]))]

/-- `replaceFirst` on a string that decomposes as `pre ++ old ++ post`,
when `old` cannot begin inside `pre` (its head character does not occur
there). -/
theorem replaceFirst_append (pre old post new : List Char) (h₀ : Char)
    (hold : old.head? = some h₀) (hpre : ∀ c ∈ pre, c ≠ h₀) :
    replaceFirst (pre ++ (old ++ post)) old new = pre ++ (new ++ post) := by
  have hne : old.isEmpty = false := by
    cases old with
    | nil => simp at hold
    | cons _ _ => rfl
  induction pre with
  | nil =>
    cases old with
    | nil => simp at hold
    | cons o os =>
      simp only [List.nil_append, replaceFirst, List.isEmpty_cons, Bool.false_eq_true,
        if_false]
      rw [if_pos]
      · simp only [List.append_eq]
        have hdrop : List.drop (o :: os).length (o :: (os ++ post)) = post :=
          List.drop_left (o :: os) post
        rw [hdrop]
      · exact List.isPrefixOf_iff_prefix.mpr (List.prefix_append _ _)
  | cons c cs ih =>
    have hco : old.isPrefixOf (c :: (cs ++ (old ++ post))) = false := by
      cases old with
      | nil => simp at hold
      | cons o os =>
        have ho : o = h₀ := by simpa using hold
        have hoc : (o == c) = false := by
          refine beq_eq_false_iff_ne.mpr ?_
          rw [ho]
          exact fun e => (hpre c (by simp)) e.symm
        simp [List.isPrefixOf_cons₂, hoc]
    simp only [List.cons_append, replaceFirst, hne, Bool.false_eq_true, if_false,
      List.append_eq]
    rw [if_neg (by simp [hco]), ih (fun x hx => hpre x (by simp [hx]))]

theorem contains_false_forall {l : List Char} {x : Char}
    (h : l.contains x = false) : ∀ c ∈ l, c ≠ x := by
  intro c hc he
  subst he
  rw [show l.contains c = l.elem c from rfl, List.elem_eq_mem, decide_eq_false_iff_not] at h
  exact h hc

/-- `findBraceMatch` finds nothing when no `}` follows the first `{`. -/
theorem findBraceMatch_none {s : List Char}
    (h : ((s.dropWhile (· ≠ '{')).tail.contains '}') = false) :
    findBraceMatch s = none := by
  unfold findBraceMatch
  by_cases he : (s.dropWhile (· ≠ '{')).isEmpty
  · simp only [he, if_true]
  · have hafter : ((s.dropWhile (· ≠ '{')).tail.dropWhile (· ≠ '}')) = [] := by
      rw [List.dropWhile_eq_nil_iff]
      intro x hx
      have := contains_false_forall h x hx
      simpa using this
    simp only [he, if_false, hafter, List.isEmpty_nil, if_true, Bool.false_eq_true]

/-- `findBraceMatch` on an explicit decomposition
`pre ++ "{" ++ inner ++ "}" ++ post`. -/
theorem findBraceMatch_some {pre inner post : List Char}
    (hpre : ∀ c ∈ pre, c ≠ '{') (hinner : ∀ c ∈ inner, c ≠ '}') :
    findBraceMatch (pre ++ ('{' :: (inner ++ ('}' :: post)))) =
      some ('{' :: inner ++ ['}'], inner) := by
  unfold findBraceMatch
  have hdw : (pre ++ ('{' :: (inner ++ ('}' :: post)))).dropWhile (· ≠ '{') =
      '{' :: (inner ++ ('}' :: post)) := by
    rw [dropWhile_append_of_all (fun c hc => by simpa using hpre c hc)]
    simp [List.dropWhile_cons]
  have htw : (inner ++ ('}' :: post)).takeWhile (· ≠ '}') = inner := by
    rw [takeWhile_append_of_all (fun c hc => by simpa using hinner c hc)]
    simp [List.takeWhile_cons]
  have hdw2 : (inner ++ ('}' :: post)).dropWhile (· ≠ '}') = '}' :: post := by
    rw [dropWhile_append_of_all (fun c hc => by simpa using hinner c hc)]
    simp [List.dropWhile_cons]
  simp only [hdw, List.isEmpty_cons, Bool.false_eq_true, if_false, List.tail_cons, htw,
    hdw2]

/-- C5: `expandBraces` returns the input unchanged when no brace group is
present (no `}` follows the first `{`); `*.{go,js}` expands to exactly
`["*.go", "*.js"]`, `*.{}` to `["*."]`, and `*.{go}` to `["*.go"]`; and in
general the first brace group's inner content is split on commas, each
option is whitespace-trimmed and substituted in place of the group, one
pattern per option in order. -/
theorem c5_expandBraces :
    (∀ p : String, ((p.data.dropWhile (· ≠ '{')).tail.contains '}') = false →
        expandBraces p = [p]) ∧
    expandBraces "*.{go,js}" = ["*.go", "*.js"] ∧
    expandBraces "*.{}" = ["*."] ∧
    expandBraces "*.{go}" = ["*.go"] ∧
    (∀ pre inner post : String,
        pre.data.contains '{' = false → inner.data.contains '}' = false →
        inner ≠ "" →
        expandBraces (pre ++ "\x7b" ++ inner ++ "\x7d" ++ post) =
          (splitOnChar ',' inner.data).map
            (fun o => pre ++ (⟨goTrimSpace o⟩ : String) ++ post)) := by
  refine ⟨?_, by decide, by decide, by decide, ?_⟩
  · intro p h
    unfold expandBraces
    rw [findBraceMatch_none h]
  · intro pre inner post hpre hinner hne
    have hpre' : ∀ c ∈ pre.data, c ≠ '{' := contains_false_forall hpre
    have hinner' : ∀ c ∈ inner.data, c ≠ '}' := contains_false_forall hinner
    have hdata : (pre ++ "\x7b" ++ inner ++ "\x7d" ++ post).data =
        pre.data ++ ('{' :: (inner.data ++ ('}' :: post.data))) := by
      simp [String.data_append]
    have hinnerE : inner.data.isEmpty = false := by
      cases hd : inner.data with
      | nil => exact absurd (String.ext hd) hne
      | cons _ _ => rfl
    unfold expandBraces
    rw [hdata, findBraceMatch_some hpre' hinner']
    dsimp only
    rw [hinnerE]
    simp only [Bool.false_eq_true, if_false]
    refine List.map_congr_left ?_
    intro o _
    have hshape : pre.data ++ ('{' :: (inner.data ++ ('}' :: post.data))) =
        pre.data ++ (('{' :: inner.data ++ ['}']) ++ post.data) := by
      simp
    rw [hshape, replaceFirst_append pre.data ('{' :: inner.data ++ ['}']) post.data
      (goTrimSpace o) '{' rfl hpre']
    apply String.ext
    simp [String.data_append]

/-- Witness for C5: its universally quantified parts applied at concrete
patterns. -/
theorem c5_expandBraces_witness :
    expandBraces "hello.txt" = ["hello.txt"] ∧
    expandBraces ("f." ++ "\x7b" ++ "go, js" ++ "\x7d" ++ "x") =
      (splitOnChar ',' ("go, js" : String).data).map
        (fun o => "f." ++ (⟨goTrimSpace o⟩ : String) ++ "x") :=
  ⟨c5_expandBraces.1 "hello.txt" (by decide),
   c5_expandBraces.2.2.2.2 "f." "go, js" "x" (by decide) (by decide) (by decide)⟩

end Wintree







namespace Wintree

/-! ## C2: the concrete render example -/

/-- C2 counterexample: for root `/R` and matched paths `/R/a.go` and
`/R/sub/b.js`, the claim expects the non-last top-level sibling `a.go` to
carry the tee connector `├──`; the code does not produce that output. -/
theorem c2_counterexample :
    buildTreeOutput "/R" ["/R/a.go", "/R/sub/b.js"] ≠
      "R\n├── a.go\n└── sub\n    └── b.js\n" := by
  intro h
  have hout : buildTreeOutput "/R" ["/R/a.go", "/R/sub/b.js"] =
      "R\n└── a.go\n└── sub\n    └── b.js\n" := rfl
  rw [hout] at h
  simp at h

/-- C2 (amended): for root `/R` and matched paths `/R/a.go` and
`/R/sub/b.js`, the render shows `a.go` and `sub` as top-level entries in
ascending lexicographic order with `b.js` nested exactly one level under
`sub` (four-space indentation); `sub` and `b.js` carry the corner
connector as the last of their siblings, but `a.go` also carries the
corner connector even though `sub` follows it, because the last-sibling
test requires both relative paths to have more than one segment and so
marks every depth-0 entry as last. -/
theorem c2_render_example :
    buildTreeOutput "/R" ["/R/a.go", "/R/sub/b.js"] =
      "R\n└── a.go\n└── sub\n    └── b.js\n" := rfl

/-! ## C10: paths outside the root are ignored -/

theorem foldl_nodeKeys_skip {root : String} {paths : List String}
    (h : ∀ p ∈ paths, root.data.isPrefixOf p.data = false) :
    ∀ acc : List String,
      paths.foldl
        (fun acc p =>
          if root.data.isPrefixOf p.data then
            ancestorKeys root (p.length + 2) (goDir p) (addKey p acc)
          else acc)
        acc = acc := by
  induction paths with
  | nil => intro acc; rfl
  | cons q qs ih =>
    intro acc
    simp only [List.foldl_cons, h q (by simp), Bool.false_eq_true, if_false]
    exact ih (fun p hp => h p (by simp [hp])) acc

/-- C10: `buildTreeOutput` silently ignores every path that does not have
the root as a string prefix — prepending such a path never changes the
output — and a non-empty path list in which no path has the root prefix
renders exactly the root's base name followed by a line break, the same
as the empty list. -/
theorem c10_outside_root_ignored :
    (∀ (root p : String) (paths : List String),
        root.data.isPrefixOf p.data = false →
        buildTreeOutput root (p :: paths) = buildTreeOutput root paths) ∧
    (∀ (root : String) (paths : List String), paths ≠ [] →
        (∀ p ∈ paths, root.data.isPrefixOf p.data = false) →
        buildTreeOutput root paths = goBase root ++ "\n" ∧
          buildTreeOutput root paths = buildTreeOutput root []) := by
  constructor
  · intro root p paths hp
    have hkeys : nodeKeys root (p :: paths) = nodeKeys root paths := by
      simp only [nodeKeys, List.foldl_cons, hp, Bool.false_eq_true, if_false]
    cases paths with
    | nil =>
      simp only [buildTreeOutput, List.isEmpty_cons, List.isEmpty_nil, Bool.false_eq_true,
        if_false, if_true]
      have : sortedNodes root [p] = [root] := by
        simp only [sortedNodes, hkeys]
        rfl
      rw [this]
      simp [renderNodes]
    | cons q qs =>
      simp only [buildTreeOutput, List.isEmpty_cons, Bool.false_eq_true, if_false,
        sortedNodes, hkeys]
  · intro root paths hne hall
    have hkeys : nodeKeys root paths = [root] := by
      simpa only [nodeKeys] using foldl_nodeKeys_skip hall [root]
    have hout : buildTreeOutput root paths = goBase root ++ "\n" := by
      cases paths with
      | nil => exact absurd rfl hne
      | cons q qs =>
        simp only [buildTreeOutput, List.isEmpty_cons, Bool.false_eq_true, if_false,
          sortedNodes, hkeys]
        have : List.insertionSort strLe [root] = [root] := rfl
        rw [this]
        simp [renderNodes]
    exact ⟨hout, by rw [hout]; rfl⟩

/-- Witness for C10 at concrete inputs. -/
theorem c10_outside_root_ignored_witness :
    buildTreeOutput "/r" ["/x/a.go", "/r/b.go"] = buildTreeOutput "/r" ["/r/b.go"] ∧
    (buildTreeOutput "/r" ["/x/a.go", "/q/c.go"] = goBase "/r" ++ "\n" ∧
      buildTreeOutput "/r" ["/x/a.go", "/q/c.go"] = buildTreeOutput "/r" []) :=
  ⟨c10_outside_root_ignored.1 "/r" "/x/a.go" ["/r/b.go"] (by decide),
   c10_outside_root_ignored.2 "/r" ["/x/a.go", "/q/c.go"] (by decide)
     (by intro p hp; fin_cases hp <;> decide)⟩

/-! ## Order properties of `strLe` (the `sort.Strings` order) -/

theorem charListLe_total : ∀ l₁ l₂ : List Char, charListLe l₁ l₂ = true ∨ charListLe l₂ l₁ = true
  | [], _ => Or.inl rfl
  | _ :: _, [] => Or.inr rfl
  | a :: as, b :: bs => by
    rcases lt_trichotomy a b with h | h | h
    · left; simp [charListLe, h]
    · subst h
      rcases charListLe_total as bs with hl | hl
      · left; simp [charListLe, lt_irrefl, hl]
      · right; simp [charListLe, lt_irrefl, hl]
    · right; simp [charListLe, h]

theorem charListLe_antisymm : ∀ {l₁ l₂ : List Char},
    charListLe l₁ l₂ = true → charListLe l₂ l₁ = true → l₁ = l₂
  | [], [], _, _ => rfl
  | [], _ :: _, _, h₂ => by simp [charListLe] at h₂
  | _ :: _, [], h₁, _ => by simp [charListLe] at h₁
  | a :: as, b :: bs, h₁, h₂ => by
    rcases lt_trichotomy a b with h | h | h
    · simp [charListLe, h, lt_asymm h] at h₂
    · subst h
      simp only [charListLe, lt_irrefl, if_false] at h₁ h₂
      rw [charListLe_antisymm h₁ h₂]
    · simp [charListLe, h, lt_asymm h] at h₁

theorem charListLe_trans : ∀ {l₁ l₂ l₃ : List Char},
    charListLe l₁ l₂ = true → charListLe l₂ l₃ = true → charListLe l₁ l₃ = true
  | [], _, _, _, _ => rfl
  | _ :: _, [], _, h₁, _ => by simp [charListLe] at h₁
  | _ :: _, _ :: _, [], _, h₂ => by simp [charListLe] at h₂
  | a :: as, b :: bs, c :: cs, h₁, h₂ => by
    rcases lt_trichotomy a b with hab | hab | hab
    · rcases lt_trichotomy b c with hbc | hbc | hbc
      · simp [charListLe, lt_trans hab hbc]
      · subst hbc; simp [charListLe, hab]
      · simp [charListLe, hbc, lt_asymm hbc] at h₂
    · subst hab
      rcases lt_trichotomy a c with hbc | hbc | hbc
      · simp [charListLe, hbc]
      · subst hbc
        simp only [charListLe, lt_irrefl, if_false] at h₁ h₂ ⊢
        exact charListLe_trans h₁ h₂
      · simp [charListLe, hbc, lt_asymm hbc] at h₂
    · simp [charListLe, hab, lt_asymm hab] at h₁

instance : IsTotal String strLe := ⟨fun a b => charListLe_total a.data b.data⟩

instance : IsTrans String strLe :=
  ⟨fun _ _ _ hab hbc => charListLe_trans hab hbc⟩

instance : IsAntisymm String strLe :=
  ⟨fun _ _ hab hba => String.ext (charListLe_antisymm hab hba)⟩

/-! ## C9: the renderer depends only on the set of paths -/

/-- The set of directories the ancestor loop walks through, as a plain
list (the keys `ancestorKeys` inserts beyond its accumulator). -/
def ancestorListP (root : String) : Nat → String → List String
  | 0, _ => []
  | n + 1, dir =>
    if dir ≠ root ∧ dir ≠ "." ∧ dir ≠ "/" then dir :: ancestorListP root n (goDir dir)
    else []

theorem mem_addKey {x a : String} {l : List String} :
    x ∈ addKey a l ↔ x ∈ l ∨ x = a := by
  unfold addKey
  by_cases h : a ∈ l
  · simp only [h, if_true]
    constructor
    · exact Or.inl
    · rintro (hx | rfl) <;> assumption
  · simp [h]

theorem nodup_addKey {a : String} {l : List String} (h : l.Nodup) :
    (addKey a l).Nodup := by
  unfold addKey
  by_cases ha : a ∈ l
  · simpa [ha]
  · rw [if_neg ha]
    refine List.Nodup.append h (List.nodup_singleton a) ?_
    simp [List.disjoint_singleton, ha]

theorem mem_ancestorKeys {root x : String} :
    ∀ (n : Nat) (dir : String) (acc : List String),
      (x ∈ ancestorKeys root n dir acc ↔ x ∈ acc ∨ x ∈ ancestorListP root n dir)
  | 0, dir, acc => by simp [ancestorKeys, ancestorListP]
  | n + 1, dir, acc => by
    by_cases h : dir ≠ root ∧ dir ≠ "." ∧ dir ≠ "/"
    · simp only [ancestorKeys, ancestorListP]
      rw [if_pos h, if_pos h, mem_ancestorKeys n (goDir dir) (addKey dir acc), mem_addKey]
      simp only [List.mem_cons]
      tauto
    · simp only [ancestorKeys, ancestorListP]
      rw [if_neg h, if_neg h]
      simp

theorem nodup_ancestorKeys {root : String} :
    ∀ (n : Nat) (dir : String) (acc : List String), acc.Nodup →
      (ancestorKeys root n dir acc).Nodup
  | 0, _, _, h => h
  | n + 1, dir, acc, h => by
    by_cases hc : dir ≠ root ∧ dir ≠ "." ∧ dir ≠ "/"
    · simp only [ancestorKeys]
      rw [if_pos hc]
      exact nodup_ancestorKeys n (goDir dir) (addKey dir acc) (nodup_addKey h)
    · simp only [ancestorKeys]
      rw [if_neg hc]
      exact h

theorem mem_nodeKeys_foldl {root x : String} :
    ∀ (paths : List String) (acc : List String),
      (x ∈ paths.foldl
          (fun acc p =>
            if root.data.isPrefixOf p.data then
              ancestorKeys root (p.length + 2) (goDir p) (addKey p acc)
            else acc)
          acc ↔
        x ∈ acc ∨ ∃ p ∈ paths, root.data.isPrefixOf p.data = true ∧
          (x = p ∨ x ∈ ancestorListP root (p.length + 2) (goDir p)))
  | [], acc => by simp
  | q :: qs, acc => by
    simp only [List.foldl_cons]
    by_cases hq : root.data.isPrefixOf q.data
    · rw [if_pos hq, mem_nodeKeys_foldl qs _, mem_ancestorKeys, mem_addKey]
      simp only [List.mem_cons]
      constructor
      · rintro (((hx | hx) | hanc) | ⟨p, hp, hpre, hx⟩)
        · exact Or.inl hx
        · exact Or.inr ⟨q, Or.inl rfl, hq, Or.inl hx⟩
        · exact Or.inr ⟨q, Or.inl rfl, hq, Or.inr hanc⟩
        · exact Or.inr ⟨p, Or.inr hp, hpre, hx⟩
      · rintro (hx | ⟨p, (rfl | hp), hpre, hx⟩)
        · exact Or.inl (Or.inl (Or.inl hx))
        · rcases hx with rfl | hanc
          · exact Or.inl (Or.inl (Or.inr rfl))
          · exact Or.inl (Or.inr hanc)
        · exact Or.inr ⟨p, hp, hpre, hx⟩
    · rw [if_neg hq, mem_nodeKeys_foldl qs acc]
      simp only [List.mem_cons]
      constructor
      · rintro (hx | ⟨p, hp, hpre, hx⟩)
        · exact Or.inl hx
        · exact Or.inr ⟨p, Or.inr hp, hpre, hx⟩
      · rintro (hx | ⟨p, (rfl | hp), hpre, hx⟩)
        · exact Or.inl hx
        · exact absurd hpre (by simpa using hq)
        · exact Or.inr ⟨p, hp, hpre, hx⟩

theorem mem_nodeKeys {root x : String} {paths : List String} :
    x ∈ nodeKeys root paths ↔
      x = root ∨ ∃ p ∈ paths, root.data.isPrefixOf p.data = true ∧
        (x = p ∨ x ∈ ancestorListP root (p.length + 2) (goDir p)) := by
  unfold nodeKeys
  rw [mem_nodeKeys_foldl paths [root]]
  simp

theorem nodup_nodeKeys {root : String} {paths : List String} :
    (nodeKeys root paths).Nodup := by
  unfold nodeKeys
  generalize hacc : [root] = acc
  have hd : acc.Nodup := by rw [← hacc]; simp
  clear hacc
  induction paths generalizing acc with
  | nil => exact hd
  | cons q qs ih =>
    simp only [List.foldl_cons]
    by_cases hq : root.data.isPrefixOf q.data
    · rw [if_pos hq]
      exact ih _ (nodup_ancestorKeys _ _ _ (nodup_addKey hd))
    · rw [if_neg hq]
      exact ih _ hd

/-- C9: `buildTreeOutput` depends only on the set of (non-empty lists of)
paths it is given: two non-empty path lists with the same elements — any
permutation, with or without duplicates — render identically, because the
nodes are collected into a set and sorted before rendering. -/
theorem c9_set_determined (root : String) (paths₁ paths₂ : List String)
    (h₁ : paths₁ ≠ []) (h₂ : paths₂ ≠ [])
    (hset : ∀ p, p ∈ paths₁ ↔ p ∈ paths₂) :
    buildTreeOutput root paths₁ = buildTreeOutput root paths₂ := by
  have hmem : ∀ x, x ∈ nodeKeys root paths₁ ↔ x ∈ nodeKeys root paths₂ := by
    intro x
    rw [mem_nodeKeys, mem_nodeKeys]
    constructor
    · rintro (rfl | ⟨p, hp, hrest⟩)
      · exact Or.inl rfl
      · exact Or.inr ⟨p, (hset p).mp hp, hrest⟩
    · rintro (rfl | ⟨p, hp, hrest⟩)
      · exact Or.inl rfl
      · exact Or.inr ⟨p, (hset p).mpr hp, hrest⟩
  have hperm : List.Perm (nodeKeys root paths₁) (nodeKeys root paths₂) :=
    (List.perm_ext_iff_of_nodup nodup_nodeKeys nodup_nodeKeys).mpr hmem
  have hsorted : sortedNodes root paths₁ = sortedNodes root paths₂ := by
    unfold sortedNodes
    refine List.eq_of_perm_of_sorted ?_ (List.sorted_insertionSort strLe _)
      (List.sorted_insertionSort strLe _)
    exact (List.perm_insertionSort strLe _).trans
      (hperm.trans (List.perm_insertionSort strLe _).symm)
  have he₁ : paths₁.isEmpty = false := by cases paths₁ with
    | nil => exact absurd rfl h₁
    | cons _ _ => rfl
  have he₂ : paths₂.isEmpty = false := by cases paths₂ with
    | nil => exact absurd rfl h₂
    | cons _ _ => rfl
  unfold buildTreeOutput
  rw [he₁, he₂, hsorted]

/-- Witness for C9: a permutation with a duplicate renders identically. -/
theorem c9_set_determined_witness :
    buildTreeOutput "/r" ["/r/a.go", "/r/sub/b.js"] =
      buildTreeOutput "/r" ["/r/sub/b.js", "/r/a.go", "/r/sub/b.js"] :=
  c9_set_determined "/r" ["/r/a.go", "/r/sub/b.js"]
    ["/r/sub/b.js", "/r/a.go", "/r/sub/b.js"] (by decide) (by decide)
    (by intro p; constructor
        · intro hp; fin_cases hp <;> simp
        · intro hp; fin_cases hp <;> simp)

/-! ## C4: the directory whitelist -/

/-- C4: in include mode, when the main walk reaches (non-excluded, within
the depth bound) a directory whose base name is exactly equal — string
equality, not glob matching — to some include pattern, the walk's
contribution for that directory is exactly the full recursive sub-walk of
it: every file beneath it except those whose base name matches an exclude
pattern, each exactly once.  The walk returns `SkipDir` for the directory,
so the main walk does not descend into it again afterwards: nothing beyond
`subWalkFiles` is collected for this subtree. -/
theorem c4_directory_whitelist (root path : String) (f : Filter) (maxD : Int)
    (name : String) (er : Option String) (children : FSList)
    (hincl : name ∈ f.includeGlobs)
    (hexcl : ∀ pat ∈ f.excludeGlobs, goMatch pat name = false)
    (hdepth : path = root ∨
      ∃ rel, goRel root path = .ok rel ∧
        (maxD = -1 ∨ (countSepS rel : Int) ≤ maxD)) :
    walkEntry root f maxD path (.dir name er children) =
      .ok (subWalkFiles f.excludeGlobs path (.dir name er children)) := by
  have hne : f.includeGlobs.isEmpty = false := by
    cases hg : f.includeGlobs with
    | nil => rw [hg] at hincl; simp at hincl
    | cons _ _ => rfl
  have hanyIncl : f.includeGlobs.any (fun pat => name = pat) = true := by
    rw [List.any_eq_true]
    exact ⟨name, hincl, by simp⟩
  have hanyExcl : f.excludeGlobs.any (fun pat => goMatch pat name) = false := by
    rw [List.any_eq_false]
    intro pat hpat
    simp [hexcl pat hpat]
  have hcb : walkCb root f maxD path (.dir name er children) =
      .skip (subWalkFiles f.excludeGlobs path (.dir name er children)) := by
    unfold walkCb
    have hdc : (if (FSEntry.dir name er children).isDir ∧ path ≠ root then
        match goRel root path with
        | .error er => some (CbOut.err er)
        | .ok relPath =>
          if maxD ≠ -1 ∧ (countSepS relPath : Int) > maxD then some (.skip []) else none
      else none) = none := by
      rcases hdepth with rfl | ⟨rel, hrel, hd⟩
      · simp
      · by_cases hpr : path = root
        · simp [hpr]
        · have hnd : ¬ (maxD ≠ -1 ∧ (countSepS rel : Int) > maxD) := by
            rcases hd with rfl | hd
            · simp
            · intro h
              exact absurd hd (not_le.mpr h.2)
          rw [if_pos ⟨rfl, hpr⟩, hrel]
          dsimp only
          rw [if_neg hnd]
    rw [hdc]
    dsimp only [FSEntry.name, FSEntry.isDir]
    rw [hanyExcl]
    simp only [Bool.false_eq_true, if_false]
    rw [if_neg (by simp [hne])]
    rw [if_pos (by simp [hne]), if_pos trivial, if_pos hanyIncl]
  unfold walkEntry
  rw [hcb]

/-- Witness for C4 at a concrete tree. -/
theorem c4_directory_whitelist_witness :
    walkEntry "/r" (Filter.mk ["*.log"] ["src"]) (-1) "/r/src"
        (.dir "src" none (.cons (.file "a.go") (.cons (.file "b.log")
          (.cons (.dir "deep" none (.cons (.file "c.txt") .nil)) .nil)))) =
      .ok (subWalkFiles ["*.log"] "/r/src"
        (.dir "src" none (.cons (.file "a.go") (.cons (.file "b.log")
          (.cons (.dir "deep" none (.cons (.file "c.txt") .nil)) .nil))))) ∧
    subWalkFiles ["*.log"] "/r/src"
        (.dir "src" none (.cons (.file "a.go") (.cons (.file "b.log")
          (.cons (.dir "deep" none (.cons (.file "c.txt") .nil)) .nil)))) =
      ["/r/src/a.go", "/r/src/deep/c.txt"] :=
  ⟨c4_directory_whitelist "/r" "/r/src" (Filter.mk ["*.log"] ["src"]) (-1) "src" none
      (.cons (.file "a.go") (.cons (.file "b.log")
        (.cons (.dir "deep" none (.cons (.file "c.txt") .nil)) .nil)))
      (by decide) (by intro pat hpat; fin_cases hpat; rfl)
      (Or.inr ⟨"src", rfl, Or.inl rfl⟩),
   rfl⟩

/-! ## C6: include mode with no matching entry -/

mutual
/-- No entry of the tree matches any include pattern: no directory base
name equals a pattern (string equality) and no file base name glob-matches
one. -/
def noIncludeMatch (f : Filter) : FSEntry → Bool
  | .file n => f.includeGlobs.all (fun pat => !(goMatch pat n))
  | .dir n _ cs => f.includeGlobs.all (fun pat => !(n = pat)) && noIncludeMatchList f cs

/-- `noIncludeMatch` over a child list. -/
def noIncludeMatchList (f : Filter) : FSList → Bool
  | .nil => true
  | .cons c cs => noIncludeMatch f c && noIncludeMatchList f cs
end

/-- The paths a walk outcome carries (none for a failure). -/
def WalkOut.pathsOf : WalkOut → List String
  | .ok ps => ps
  | .skipAfter ps => ps
  | .fail _ => []

/-- Under a non-empty include list, the callback adds no path for an
entry that matches no include pattern. -/
theorem walkCb_noIncl {root path : String} {f : Filter} {maxD : Int} {e : FSEntry}
    (hne : f.includeGlobs.isEmpty = false)
    (hdir : e.isDir = true → ∀ pat ∈ f.includeGlobs, e.name ≠ pat)
    (hfile : e.isDir = false → ∀ pat ∈ f.includeGlobs, goMatch pat e.name = false) :
    (∃ er, walkCb root f maxD path e = .err er) ∨
      walkCb root f maxD path e = .skip [] ∨ walkCb root f maxD path e = .next [] := by
  cases hdc : (if e.isDir ∧ path ≠ root then
      match goRel root path with
      | .error er => some (CbOut.err er)
      | .ok relPath =>
        if maxD ≠ -1 ∧ (countSepS relPath : Int) > maxD then some (.skip []) else none
    else none) with
  | some out =>
    have hcb : walkCb root f maxD path e = out := by
      unfold walkCb
      rw [hdc]
    by_cases hid : e.isDir ∧ path ≠ root
    · rw [if_pos hid] at hdc
      cases hrel : goRel root path with
      | error er =>
        rw [hrel] at hdc
        simp only [Option.some.injEq] at hdc
        exact Or.inl ⟨er, by rw [hcb, ← hdc]⟩
      | ok rel =>
        rw [hrel] at hdc
        dsimp only at hdc
        by_cases hd₂ : maxD ≠ -1 ∧ (countSepS rel : Int) > maxD
        · rw [if_pos hd₂] at hdc
          simp only [Option.some.injEq] at hdc
          exact Or.inr (Or.inl (by rw [hcb, ← hdc]))
        · rw [if_neg hd₂] at hdc
          exact absurd hdc (by simp)
    · rw [if_neg hid] at hdc
      exact absurd hdc (by simp)
  | none =>
    by_cases hexcl : (f.excludeGlobs.any fun pat => goMatch pat e.name) = true
    · by_cases hd : e.isDir = true
      · by_cases hpr : path = root
        · refine Or.inr (Or.inr ?_)
          unfold walkCb
          rw [hdc]
          dsimp only
          rw [if_pos hexcl, if_pos hd, if_pos hpr]
        · refine Or.inr (Or.inl ?_)
          unfold walkCb
          rw [hdc]
          dsimp only
          rw [if_pos hexcl, if_pos hd, if_neg hpr]
      · refine Or.inr (Or.inr ?_)
        unfold walkCb
        rw [hdc]
        dsimp only
        rw [if_pos hexcl, if_neg hd]
    · by_cases hd : e.isDir = true
      · have hany : (f.includeGlobs.any fun pat => decide (e.name = pat)) = false := by
          rw [List.any_eq_false]
          intro pat hpat
          simpa using hdir hd pat hpat
        refine Or.inr (Or.inr ?_)
        unfold walkCb
        rw [hdc]
        dsimp only
        rw [if_neg hexcl, if_neg (by simp [hne]), if_pos (by simp [hne]), if_pos hd,
          hany]
        simp
      · have hany : (f.includeGlobs.any fun pat => goMatch pat e.name) = false := by
          rw [List.any_eq_false]
          intro pat hpat
          simp [hfile (by simpa using hd) pat hpat]
        refine Or.inr (Or.inr ?_)
        unfold walkCb
        rw [hdc]
        dsimp only
        rw [if_neg hexcl, if_neg (by simp [hne, hd]), if_pos (by simp [hne]),
          if_neg hd, hany]
        simp

mutual
/-- In include mode, an entry none of whose tree matches an include
pattern contributes no path to the walk. -/
theorem walkEntry_noIncl (root : String) (f : Filter) (maxD : Int) (path : String)
    (e : FSEntry) (hne : f.includeGlobs.isEmpty = false)
    (h : noIncludeMatch f e = true) :
    (walkEntry root f maxD path e).pathsOf = [] :=
  match e, h with
  | .file n, h => by
    have hx : ∀ pat ∈ f.includeGlobs, goMatch pat n = false := by
      simpa [noIncludeMatch] using h
    have hcb := @walkCb_noIncl root path f maxD
      (.file n) hne (by intro hd; simp [FSEntry.isDir] at hd)
      (by intro _ pat hpat
          simpa [FSEntry.name] using hx pat hpat)
    unfold walkEntry
    rcases hcb with ⟨er, hcb⟩ | hcb | hcb <;> rw [hcb] <;> rfl
  | .dir n er cs, h => by
    have hparts : (∀ pat ∈ f.includeGlobs, ¬ n = pat) ∧
        noIncludeMatchList f cs = true := by
      simpa [noIncludeMatch] using h
    have hcb := @walkCb_noIncl root path f maxD
      (.dir n er cs) hne
      (by intro _ pat hpat
          simpa [FSEntry.name] using hparts.1 pat hpat)
      (by intro hd; simp [FSEntry.isDir] at hd)
    unfold walkEntry
    rcases hcb with ⟨e₂, hcb⟩ | hcb | hcb <;> rw [hcb]
    · rfl
    · rfl
    · cases er with
      | some e₂ => rfl
      | none =>
        have hlist := walkList_noIncl root f maxD path cs hne hparts.2
        cases hw : walkList root f maxD path cs with
        | fail e₂ => rfl
        | ok ps =>
          rw [hw] at hlist
          simp only [WalkOut.pathsOf] at hlist
          simp [hlist, WalkOut.pathsOf]
        | skipAfter ps =>
          rw [hw] at hlist
          simp only [WalkOut.pathsOf] at hlist
          simp [hlist, WalkOut.pathsOf]

/-- In include mode, a child list none of whose tree matches an include
pattern contributes no path to the walk. -/
theorem walkList_noIncl (root : String) (f : Filter) (maxD : Int) (path : String)
    (cs : FSList) (hne : f.includeGlobs.isEmpty = false)
    (h : noIncludeMatchList f cs = true) :
    (walkList root f maxD path cs).pathsOf = [] :=
  match cs, h with
  | .nil, _ => rfl
  | .cons c cs, h => by
    have hparts : noIncludeMatch f c = true ∧ noIncludeMatchList f cs = true := by
      simpa [noIncludeMatchList] using h
    have hc := walkEntry_noIncl root f maxD (goJoin path c.name) c hne hparts.1
    have hcs := walkList_noIncl root f maxD path cs hne hparts.2
    unfold walkList
    cases hw : walkEntry root f maxD (goJoin path c.name) c with
    | fail e₂ => rfl
    | skipAfter ps =>
      rw [hw] at hc
      simp only [WalkOut.pathsOf] at hc
      simp [hc, WalkOut.pathsOf]
    | ok ps =>
      rw [hw] at hc
      simp only [WalkOut.pathsOf] at hc
      cases hw₂ : walkList root f maxD path cs with
      | fail e₂ => rfl
      | ok ps₂ =>
        rw [hw₂] at hcs
        simp only [WalkOut.pathsOf] at hcs
        simp [hc, hcs, WalkOut.pathsOf]
      | skipAfter ps₂ =>
        rw [hw₂] at hcs
        simp only [WalkOut.pathsOf] at hcs
        simp [hc, hcs, WalkOut.pathsOf]
end

/-- C6: when the include pattern list is non-empty and no entry in the
tree matches any include pattern (no directory base name equals a pattern
and no file base name glob-matches one), `findMatchingFiles` returns the
empty result — it never falls back to including everything. -/
theorem c6_no_match_empty (root : String) (e : FSEntry) (f : Filter) (maxD : Int)
    (ps : List String) (hne : f.includeGlobs ≠ [])
    (h : noIncludeMatch f e = true)
    (hok : findMatchingFiles root (.present e) f maxD = .ok ps) : ps = [] := by
  have hne' : f.includeGlobs.isEmpty = false := by
    cases hg : f.includeGlobs with
    | nil => exact absurd hg hne
    | cons _ _ => rfl
  unfold findMatchingFiles at hok
  dsimp only at hok
  cases hw : walkEntry root f maxD root e with
  | fail e₂ =>
    rw [hw] at hok
    exact absurd hok (by simp)
  | ok ps₂ =>
    rw [hw] at hok
    have hmain := walkEntry_noIncl root f maxD root e hne' h
    rw [hw] at hmain
    simp only [WalkOut.pathsOf] at hmain
    simp only [Except.ok.injEq] at hok
    rw [← hok]
    exact hmain
  | skipAfter ps₂ =>
    rw [hw] at hok
    have hmain := walkEntry_noIncl root f maxD root e hne' h
    rw [hw] at hmain
    simp only [WalkOut.pathsOf] at hmain
    simp only [Except.ok.injEq] at hok
    rw [← hok]
    exact hmain

/-- Witness for C6: the hypotheses hold at a concrete tree and the
conclusion follows by applying the theorem there. -/
theorem c6_no_match_empty_witness :
    (Filter.mk [] ["*.zz"]).includeGlobs ≠ [] ∧
    noIncludeMatch (Filter.mk [] ["*.zz"])
      (.dir "r" none (.cons (.file "a.go")
        (.cons (.dir "docs" none (.cons (.file "x.md") .nil)) .nil))) = true ∧
    ([] : List String) = [] :=
  ⟨by decide, by decide,
   c6_no_match_empty "/r"
     (.dir "r" none (.cons (.file "a.go")
       (.cons (.dir "docs" none (.cons (.file "x.md") .nil)) .nil)))
     (Filter.mk [] ["*.zz"]) (-1) [] (by decide) (by decide) (by rfl)⟩

/-! ## Exhaustive description of the callback's outcomes -/

/-- Every outcome of the walk callback: an error; no path added (continue
or `SkipDir`); the entry's own path added, only for a non-excluded file
within the depth bound; or the whitelist sub-walk's files, only for a
non-excluded directory whose name equals an include pattern. -/
theorem walkCb_cases (root path : String) (f : Filter) (maxD : Int) (e : FSEntry) :
    (∃ er, walkCb root f maxD path e = .err er) ∨
    walkCb root f maxD path e = .skip [] ∨
    walkCb root f maxD path e = .next [] ∨
    (walkCb root f maxD path e = .next [path] ∧ e.isDir = false ∧
      (∀ pat ∈ f.excludeGlobs, goMatch pat e.name = false) ∧
      ∃ rel, goRel root path = .ok rel ∧
        (maxD = -1 ∨ (countSepS rel : Int) < maxD + 1)) ∨
    (walkCb root f maxD path e = .skip (subWalkFiles f.excludeGlobs path e) ∧
      e.isDir = true ∧
      (∀ pat ∈ f.excludeGlobs, goMatch pat e.name = false) ∧
      f.includeGlobs ≠ [] ∧ e.name ∈ f.includeGlobs) := by
  cases hdc : (if e.isDir ∧ path ≠ root then
      match goRel root path with
      | .error er => some (CbOut.err er)
      | .ok relPath =>
        if maxD ≠ -1 ∧ (countSepS relPath : Int) > maxD then some (.skip []) else none
    else none) with
  | some out =>
    have hcb : walkCb root f maxD path e = out := by
      unfold walkCb
      rw [hdc]
    by_cases hid : e.isDir ∧ path ≠ root
    · rw [if_pos hid] at hdc
      cases hrel : goRel root path with
      | error er =>
        rw [hrel] at hdc
        simp only [Option.some.injEq] at hdc
        exact Or.inl ⟨er, by rw [hcb, ← hdc]⟩
      | ok rel =>
        rw [hrel] at hdc
        dsimp only at hdc
        by_cases hd₂ : maxD ≠ -1 ∧ (countSepS rel : Int) > maxD
        · rw [if_pos hd₂] at hdc
          simp only [Option.some.injEq] at hdc
          exact Or.inr (Or.inl (by rw [hcb, ← hdc]))
        · rw [if_neg hd₂] at hdc
          exact absurd hdc (by simp)
    · rw [if_neg hid] at hdc
      exact absurd hdc (by simp)
  | none =>
    by_cases hexcl : (f.excludeGlobs.any fun pat => goMatch pat e.name) = true
    · by_cases hd : e.isDir = true
      · by_cases hpr : path = root
        · refine Or.inr (Or.inr (Or.inl ?_))
          unfold walkCb
          rw [hdc]
          dsimp only
          rw [if_pos hexcl, if_pos hd, if_pos hpr]
        · refine Or.inr (Or.inl ?_)
          unfold walkCb
          rw [hdc]
          dsimp only
          rw [if_pos hexcl, if_pos hd, if_neg hpr]
      · refine Or.inr (Or.inr (Or.inl ?_))
        unfold walkCb
        rw [hdc]
        dsimp only
        rw [if_pos hexcl, if_neg hd]
    · have hnotExcl : ∀ pat ∈ f.excludeGlobs, goMatch pat e.name = false := by
        intro pat hpat
        have := List.any_eq_false.mp (by simpa using hexcl) pat hpat
        simpa using this
      by_cases hinc : f.includeGlobs.isEmpty = true
      · by_cases hd : e.isDir = true
        · refine Or.inr (Or.inr (Or.inl ?_))
          unfold walkCb
          rw [hdc]
          dsimp only
          rw [if_neg hexcl, if_neg (by simp [hd]), if_neg (by simp [hinc])]
        · cases hrel : goRel root path with
          | error er =>
            refine Or.inl ⟨er, ?_⟩
            unfold walkCb
            rw [hdc]
            dsimp only
            rw [if_neg hexcl, if_pos (by simp [hd, hinc]), hrel]
          | ok rel =>
            by_cases hdep : maxD = -1 ∨ (countSepS rel : Int) < maxD + 1
            · refine Or.inr (Or.inr (Or.inr (Or.inl
                ⟨?_, (by simpa using hd), hnotExcl, rel, rfl, hdep⟩)))
              unfold walkCb
              rw [hdc]
              dsimp only
              rw [if_neg hexcl, if_pos (by simp [hd, hinc]), hrel]
              dsimp only
              rw [if_pos hdep]
            · refine Or.inr (Or.inr (Or.inl ?_))
              unfold walkCb
              rw [hdc]
              dsimp only
              rw [if_neg hexcl, if_pos (by simp [hd, hinc]), hrel]
              dsimp only
              rw [if_neg hdep]
      · have hglobs : f.includeGlobs ≠ [] := by
          cases hg : f.includeGlobs with
          | nil => rw [hg] at hinc; simp at hinc
          | cons _ _ => simp
        by_cases hd : e.isDir = true
        · by_cases hmatch : (f.includeGlobs.any fun pat => decide (e.name = pat)) = true
          · have hmem : e.name ∈ f.includeGlobs := by
              obtain ⟨pat, hpat, hp⟩ := List.any_eq_true.mp hmatch
              simp only [decide_eq_true_eq] at hp
              rw [hp]
              exact hpat
            refine Or.inr (Or.inr (Or.inr (Or.inr
              ⟨?_, hd, hnotExcl, hglobs, hmem⟩)))
            unfold walkCb
            rw [hdc]
            dsimp only
            rw [if_neg hexcl, if_neg (by simp [hd]), if_pos (by simp [hinc]),
              if_pos hd, if_pos hmatch]
          · refine Or.inr (Or.inr (Or.inl ?_))
            unfold walkCb
            rw [hdc]
            dsimp only
            rw [if_neg hexcl, if_neg (by simp [hd]), if_pos (by simp [hinc]),
              if_pos hd, if_neg hmatch]
        · by_cases hmatch : (f.includeGlobs.any fun pat => goMatch pat e.name) = true
          · cases hrel : goRel root path with
            | error er =>
              refine Or.inl ⟨er, ?_⟩
              unfold walkCb
              rw [hdc]
              dsimp only
              rw [if_neg hexcl, if_neg (by simp [hinc]), if_pos (by simp [hinc]),
                if_neg hd, if_pos hmatch, hrel]
            | ok rel =>
              by_cases hdep : maxD = -1 ∨ (countSepS rel : Int) < maxD + 1
              · refine Or.inr (Or.inr (Or.inr (Or.inl
                  ⟨?_, (by simpa using hd), hnotExcl, rel, rfl, hdep⟩)))
                unfold walkCb
                rw [hdc]
                dsimp only
                rw [if_neg hexcl, if_neg (by simp [hinc]), if_pos (by simp [hinc]),
                  if_neg hd, if_pos hmatch, hrel]
                dsimp only
                rw [if_pos hdep]
              · refine Or.inr (Or.inr (Or.inl ?_))
                unfold walkCb
                rw [hdc]
                dsimp only
                rw [if_neg hexcl, if_neg (by simp [hinc]), if_pos (by simp [hinc]),
                  if_neg hd, if_pos hmatch, hrel]
                dsimp only
                rw [if_neg hdep]
          · refine Or.inr (Or.inr (Or.inl ?_))
            unfold walkCb
            rw [hdc]
            dsimp only
            rw [if_neg hexcl, if_neg (by simp [hinc]), if_pos (by simp [hinc]),
              if_neg hd, if_neg hmatch]

/-! ## Well-formed absolute paths

Real file systems only produce entry names without separators and
different from `.` and `..`, and the program resolves the root through
`filepath.Abs`, which returns a cleaned absolute path.  The predicates
below capture those shapes; on them the path functions act simply
(`Clean` is the identity, `Join` appends, `Base` takes the last name). -/

/-- A well-formed path segment: non-empty, no separator, not `.`/`..`. -/
def wfSeg (s : List Char) : Bool :=
  ¬ s.isEmpty ∧ ¬ s.contains '/' ∧ s ≠ ['.'] ∧ s ≠ ['.', '.']

/-- A well-formed entry name (what `d.Name()` can be on a real file
system). -/
def wfName (n : String) : Bool := wfSeg n.data

/-- Join segments with `/` separators (no leading or trailing one). -/
def joinSegs : List (List Char) → List Char
  | [] => []
  | [s] => s
  | s :: rest => s ++ '/' :: joinSegs rest

/-- A cleaned absolute path: `/` followed by well-formed segments. -/
def cleanAbsL (p : List Char) : Bool :=
  match p with
  | '/' :: rest => rest.isEmpty ∨ (splitOnChar '/' rest).all wfSeg
  | _ => false

/-- A cleaned absolute path, on strings (`filepath.Abs` output shape). -/
def cleanAbs (p : String) : Bool := cleanAbsL p.data

theorem splitOnChar_ne_nil (sep : Char) (l : List Char) : splitOnChar sep l ≠ [] := by
  cases l with
  | nil => simp [splitOnChar]
  | cons c rest =>
    unfold splitOnChar
    by_cases h : c = sep
    · simp [h]
    · rw [if_neg h]
      cases splitOnChar sep rest <;> simp

theorem joinSegs_cons (s : List Char) (rest : List (List Char)) (h : rest ≠ []) :
    joinSegs (s :: rest) = s ++ '/' :: joinSegs rest := by
  cases rest with
  | nil => exact absurd rfl h
  | cons _ _ => rfl

theorem joinSegs_splitOnChar (l : List Char) : joinSegs (splitOnChar '/' l) = l := by
  induction l with
  | nil => rfl
  | cons c rest ih =>
    unfold splitOnChar
    by_cases h : c = '/'
    · rw [if_pos h, joinSegs_cons _ _ (splitOnChar_ne_nil _ _), ih, h]
      rfl
    · rw [if_neg h]
      cases hs : splitOnChar '/' rest with
      | nil => exact absurd hs (splitOnChar_ne_nil _ _)
      | cons g gs =>
        rw [hs] at ih
        cases gs with
        | nil =>
          simp only [joinSegs] at ih
          simp [joinSegs, ih]
        | cons g₂ gs₂ =>
          rw [joinSegs_cons _ _ (by simp)] at ih
          rw [joinSegs_cons _ _ (by simp)]
          simp [ih]

/-- What the copy loop of `Clean` produces for a list of well-formed
segments: each segment reversed onto the buffer, preceded by a separator
unless the buffer is still just the root slash. -/
def pushSegs (outRev : List Char) : List (List Char) → List Char
  | [] => outRev
  | s :: rest =>
    pushSegs (s.reverse ++ (if outRev.length = 1 then outRev else '/' :: outRev)) rest

theorem cleanLoop_nil (rooted : Bool) (fuel : Nat) (outRev : List Char) (dd : Nat) :
    cleanLoop rooted fuel [] outRev dd = outRev := by
  cases fuel <;> rfl

theorem cleanLoop_slash (rooted : Bool) (fuel : Nat) (rest outRev : List Char) (dd : Nat) :
    cleanLoop rooted (fuel + 1) ('/' :: rest) outRev dd =
      cleanLoop rooted fuel rest outRev dd := rfl

theorem cleanLoop_segs :
    ∀ (segs : List (List Char)), (∀ s ∈ segs, wfSeg s) →
    ∀ (fuel : Nat) (outRev : List Char), (joinSegs segs).length ≤ fuel →
    cleanLoop true fuel (joinSegs segs) outRev 1 = pushSegs outRev segs := by
  intro segs
  induction segs with
  | nil =>
    intro _ fuel outRev _
    exact cleanLoop_nil true fuel outRev 1
  | cons s rest ih =>
    intro hwf fuel outRev hfuel
    have hs : wfSeg s = true := hwf s (by simp)
    obtain ⟨hne, hnosl, hdot, hdotdot⟩ :
        (¬ s.isEmpty = true) ∧ (¬ s.contains '/' = true) ∧ s ≠ ['.'] ∧ s ≠ ['.', '.'] := by
      simpa [wfSeg] using hs
    have hnosl' : ∀ x ∈ s, x ≠ '/' :=
      contains_false_forall (by simpa using hnosl)
    cases s with
    | nil => simp at hne
    | cons c s' =>
    have hc : c ≠ '/' := hnosl' c (by simp)
    cases hrest : rest with
    | nil =>
      subst hrest
      have hj : joinSegs [c :: s'] = c :: s' := rfl
      rw [hj] at hfuel ⊢
      cases fuel with
      | zero => simp at hfuel
      | succ f =>
        unfold cleanLoop
        rw [if_neg (by simpa using hc)]
        rw [if_neg ?hg1]
        case hg1 =>
          rintro ⟨hcd, hrest'⟩
          subst hcd
          rcases hrest' with he | hh
          · exact hdot (by simpa using congrArg (List.cons '.') (List.isEmpty_iff.mp he))
          · rcases hs' : s' with _ | ⟨x, xs⟩
            · exact hdot (by simp [hs'])
            · rw [hs'] at hh
              simp only [List.head?_cons, Option.some.injEq] at hh
              exact hnosl' x (by simp [hs']) hh
        rw [if_neg ?hg2]
        case hg2 =>
          rintro ⟨hcd, hh, hrest'⟩
          subst hcd
          rcases hs' : s' with _ | ⟨x, xs⟩
          · rw [hs'] at hh; simp at hh
          · rw [hs'] at hh hrest'
            simp only [List.head?_cons, Option.some.injEq] at hh
            subst hh
            rcases hxs : xs with _ | ⟨y, ys⟩
            · exact hdotdot (by simp [hs', hxs])
            · rw [hxs] at hrest'
              rcases hrest' with he | hh₂
              · simp at he
              · simp only [List.tail_cons, List.head?_cons, Option.some.injEq] at hh₂
                exact hnosl' y (by simp [hs', hxs]) hh₂
        dsimp only
        rw [show s'.takeWhile (fun x => decide (x ≠ '/')) = s' from
          List.takeWhile_eq_self_iff.mpr ?htw]
        case htw =>
          intro x hx
          simpa using hnosl' x (by simp [hx])
        rw [show s'.dropWhile (fun x => decide (x ≠ '/')) = [] from
          List.dropWhile_eq_nil_iff.mpr ?hdw]
        case hdw =>
          intro x hx
          simpa using hnosl' x (by simp [hx])
        rw [cleanLoop_nil]
        simp only [pushSegs]
        by_cases hlen : outRev.length = 1
        · rw [if_pos hlen, if_neg (by simp [hlen])]
        · rw [if_neg hlen, if_pos (by simp [hlen])]
    | cons r rs =>
      subst hrest
      have hj : joinSegs ((c :: s') :: r :: rs) = (c :: s') ++ '/' :: joinSegs (r :: rs) :=
        joinSegs_cons _ _ (by simp)
      rw [hj] at hfuel ⊢
      simp only [List.cons_append, List.length_cons, List.length_append] at hfuel
      rw [List.cons_append]
      cases fuel with
      | zero => omega
      | succ f =>
        unfold cleanLoop
        rw [if_neg (by simpa using hc)]
        rw [if_neg ?hg1b]
        case hg1b =>
          rintro ⟨hcd, hrest'⟩
          subst hcd
          rcases hrest' with he | hh
          · simp at he
          · rcases hs' : s' with _ | ⟨x, xs⟩
            · exact hdot (by simp [hs'])
            · rw [hs'] at hh
              simp only [List.cons_append, List.head?_cons, Option.some.injEq] at hh
              exact hnosl' x (by simp [hs']) hh
        rw [if_neg ?hg2b]
        case hg2b =>
          rintro ⟨hcd, hh, hrest'⟩
          subst hcd
          rcases hs' : s' with _ | ⟨x, xs⟩
          · rw [hs'] at hh; simp at hh
          · rw [hs'] at hh hrest'
            simp only [List.cons_append, List.head?_cons, Option.some.injEq] at hh
            subst hh
            rcases hxs : xs with _ | ⟨y, ys⟩
            · exact hdotdot (by simp [hs', hxs])
            · rw [hxs] at hrest'
              rcases hrest' with he | hh₂
              · simp at he
              · simp only [List.cons_append, List.tail_cons, List.head?_cons,
                  Option.some.injEq] at hh₂
                exact hnosl' y (by simp [hs', hxs]) hh₂
        dsimp only
        rw [show (s' ++ '/' :: joinSegs (r :: rs)).takeWhile (fun x => decide (x ≠ '/')) = s'
            from ?htwb]
        case htwb =>
          rw [takeWhile_append_of_all (fun x hx => by simpa using hnosl' x (by simp [hx]))]
          simp [List.takeWhile_cons]
        rw [show (s' ++ '/' :: joinSegs (r :: rs)).dropWhile (fun x => decide (x ≠ '/')) =
            '/' :: joinSegs (r :: rs) from ?hdwb]
        case hdwb =>
          rw [dropWhile_append_of_all (fun x hx => by simpa using hnosl' x (by simp [hx]))]
          simp [List.dropWhile_cons]
        cases f with
        | zero => omega
        | succ f₂ =>
          rw [cleanLoop_slash]
          rw [ih (fun t ht => hwf t (by simp [ht])) f₂ _ (by omega)]
          simp only [pushSegs]
          by_cases hlen : outRev.length = 1
          · simp [hlen, List.length_append]
          · simp [hlen, List.length_append]

theorem pushSegs_gt1 :
    ∀ (segs : List (List Char)) (outRev : List Char), 1 < outRev.length → segs ≠ [] →
      pushSegs outRev segs = (joinSegs segs).reverse ++ '/' :: outRev := by
  intro segs
  induction segs with
  | nil =>
    intro outRev _ h
    exact absurd rfl h
  | cons s rest ih =>
    intro outRev hlen _
    have hstep : pushSegs outRev (s :: rest) =
        pushSegs (s.reverse ++ (if outRev.length = 1 then outRev else '/' :: outRev)) rest :=
      rfl
    rw [hstep, if_neg (by omega)]
    cases rest with
    | nil => simp [pushSegs, joinSegs]
    | cons r rs =>
      rw [ih _ (by simp [List.length_append]; omega) (by simp)]
      conv_rhs => rw [joinSegs_cons s (r :: rs) (by simp)]
      simp

theorem pushSegs_root_reverse :
    ∀ (segs : List (List Char)), segs ≠ [] → (∀ s ∈ segs, ¬ s.isEmpty = true) →
      (pushSegs ['/'] segs).reverse = '/' :: joinSegs segs := by
  intro segs hne hnonempty
  cases segs with
  | nil => exact absurd rfl hne
  | cons s rest =>
    have hstep : pushSegs ['/'] (s :: rest) = pushSegs (s.reverse ++ ['/']) rest := rfl
    rw [hstep]
    cases rest with
    | nil => simp [pushSegs, joinSegs]
    | cons r rs =>
      have hs : ¬ s.isEmpty = true := hnonempty s (by simp)
      have hslen : 0 < s.length := by
        rcases s with _ | ⟨x, xs⟩
        · simp at hs
        · simp
      rw [pushSegs_gt1 _ _ (by simp [List.length_append]; omega) (by simp)]
      conv_rhs => rw [joinSegs_cons s (r :: rs) (by simp)]
      simp

/-- `filepath.Clean` is the identity on cleaned absolute paths. -/
theorem goCleanL_cleanAbs {p : List Char} (h : cleanAbsL p = true) : goCleanL p = p := by
  rcases p with _ | ⟨c, rest⟩
  · simp [cleanAbsL] at h
  by_cases hc : c = '/'
  case neg =>
    exfalso
    unfold cleanAbsL at h
    split at h
    · rename_i heq
      injection heq with h1 _
      exact hc h1
    · exact Bool.noConfusion h
  case pos =>
    subst hc
    have h' : rest.isEmpty = true ∨ (splitOnChar '/' rest).all wfSeg = true := by
      simpa [cleanAbsL] using h
    rcases h' with he | hall
    · have : rest = [] := by simpa using he
      subst this
      rfl
    · rcases hrest : rest with _ | ⟨c, cs⟩
      · rfl
      · rw [← hrest]
        have hne : rest ≠ [] := by rw [hrest]; simp
        have hwf : ∀ t ∈ splitOnChar '/' rest, wfSeg t = true :=
          List.all_eq_true.mp hall
        have hstep : goCleanL ('/' :: rest) =
            (if ((cleanLoop true rest.length rest ['/'] 1).reverse).isEmpty then ['.']
             else (cleanLoop true rest.length rest ['/'] 1).reverse) := rfl
        rw [hstep]
        have hjs := joinSegs_splitOnChar rest
        have hloop : cleanLoop true rest.length rest ['/'] 1 =
            pushSegs ['/'] (splitOnChar '/' rest) := by
          conv_lhs => rw [← hjs]
          exact cleanLoop_segs _ hwf _ _ (by rw [hjs])
        rw [hloop, pushSegs_root_reverse _ (splitOnChar_ne_nil _ _)
          (fun t ht => by
            have := hwf t ht
            simp only [wfSeg] at this
            exact fun hemp => by simp [hemp] at this), hjs]
        simp [hne]

/-! ## Splitting and joining well-formed segments -/

theorem wfSeg_no_sep {s : List Char} (h : wfSeg s = true) : ∀ c ∈ s, ¬ c = '/' := by
  have hc : s.contains '/' = false := by
    simp only [wfSeg, Bool.and_eq_true, decide_eq_true_eq] at h
    simpa using h.2.1
  intro c hcs
  exact contains_false_forall hc c hcs

theorem wfSeg_ne_nil {s : List Char} (h : wfSeg s = true) : s ≠ [] := by
  intro he
  subst he
  simp [wfSeg] at h

theorem splitOnChar_no_sep (sep : Char) (l : List Char) (h : ∀ c ∈ l, ¬ c = sep) :
    splitOnChar sep l = [l] := by
  induction l with
  | nil => rfl
  | cons c rest ih =>
    unfold splitOnChar
    rw [if_neg (h c (by simp)), ih (fun x hx => h x (by simp [hx]))]

theorem splitOnChar_append_sep (sep : Char) (a b : List Char) (h : ∀ c ∈ a, ¬ c = sep) :
    splitOnChar sep (a ++ sep :: b) = a :: splitOnChar sep b := by
  induction a with
  | nil =>
    show splitOnChar sep (sep :: b) = [] :: splitOnChar sep b
    rw [splitOnChar, if_pos rfl]
  | cons c rest ih =>
    rw [List.cons_append, splitOnChar, if_neg (h c (by simp)),
      ih (fun x hx => h x (by simp [hx]))]

theorem splitOnChar_joinSegs :
    ∀ (segs : List (List Char)), segs ≠ [] → (∀ s ∈ segs, wfSeg s = true) →
      splitOnChar '/' (joinSegs segs) = segs := by
  intro segs
  induction segs with
  | nil => intro h _; exact absurd rfl h
  | cons s rest ih =>
    intro _ hwf
    cases rest with
    | nil =>
      show splitOnChar '/' s = [s]
      exact splitOnChar_no_sep '/' s (wfSeg_no_sep (hwf s (by simp)))
    | cons r rs =>
      rw [joinSegs_cons _ _ (by simp),
        splitOnChar_append_sep '/' s _ (wfSeg_no_sep (hwf s (by simp))),
        ih (by simp) (fun t ht => hwf t (List.mem_cons_of_mem s ht))]

theorem cleanAbsL_cons_iff (rest : List Char) :
    cleanAbsL ('/' :: rest) = true ↔
      (rest.isEmpty = true ∨ (splitOnChar '/' rest).all wfSeg = true) := by
  simp [cleanAbsL]

/-- A root slash followed by well-formed segments is a cleaned absolute
path (for no segments this is the path `/`). -/
theorem cleanAbsL_joinSegs {segs : List (List Char)}
    (hwf : ∀ s ∈ segs, wfSeg s = true) :
    cleanAbsL ('/' :: joinSegs segs) = true := by
  rw [cleanAbsL_cons_iff]
  cases hs : segs with
  | nil => left; rfl
  | cons a as =>
    right
    rw [← hs, splitOnChar_joinSegs segs (by rw [hs]; simp) hwf]
    exact List.all_eq_true.mpr hwf

theorem joinSegs_append_single :
    ∀ (xs : List (List Char)) (y : List Char), xs ≠ [] →
      joinSegs (xs ++ [y]) = joinSegs xs ++ '/' :: y := by
  intro xs
  induction xs with
  | nil => intro y h; exact absurd rfl h
  | cons s rest ih =>
    intro y _
    cases rest with
    | nil => rfl
    | cons r rs =>
      rw [List.cons_append, joinSegs_cons _ _ (by simp),
        joinSegs_cons _ _ (by simp), ih y (by simp)]
      simp

/-! ## `Join` and `Base` on cleaned absolute paths -/

/-- Joining a well-formed name onto a cleaned absolute path appends a
separator and the name (the root `/` contributes no separator of its own),
and the result is again a cleaned absolute path. -/
theorem goJoinL_props {p n : List Char} (hp : cleanAbsL p = true) (hn : wfSeg n = true) :
    goJoinL p n = (if p = ['/'] then [] else p) ++ '/' :: n ∧
      cleanAbsL (goJoinL p n) = true := by
  have hnz : n ≠ [] := wfSeg_ne_nil hn
  rcases p with _ | ⟨c, rest⟩
  · simp [cleanAbsL] at hp
  have hc : c = '/' := by
    by_contra hne
    unfold cleanAbsL at hp
    split at hp
    · rename_i heq
      injection heq with h1 _
      exact hne h1
    · exact Bool.noConfusion hp
  subst hc
  have hstep : goJoinL ('/' :: rest) n = goCleanL ('/' :: (rest ++ '/' :: n)) := by
    unfold goJoinL
    rw [if_neg (by simp), if_neg (by simp [List.isEmpty_iff, hnz]), List.cons_append]
  rcases rest with _ | ⟨d, ds⟩
  · -- the path is the root `/`
    have h2 : goCleanL ('/' :: ([] ++ '/' :: n)) =
        (if ((cleanLoop true ('/' :: n).length ('/' :: n) ['/'] 1).reverse).isEmpty
         then ['.']
         else (cleanLoop true ('/' :: n).length ('/' :: n) ['/'] 1).reverse) := rfl
    have h3 : cleanLoop true ('/' :: n).length ('/' :: n) ['/'] 1 = pushSegs ['/'] [n] := by
      rw [show ('/' :: n).length = n.length + 1 from rfl, cleanLoop_slash]
      exact cleanLoop_segs [n] (by intro t ht; simp at ht; subst ht; exact hn)
        n.length ['/'] (le_refl n.length)
    have h4 : goCleanL ('/' :: ([] ++ '/' :: n)) = '/' :: n := by
      rw [h2, h3,
        pushSegs_root_reverse [n] (by simp)
          (by intro t ht; simp at ht; subst ht; simpa [List.isEmpty_iff] using hnz)]
      rfl
    refine ⟨?_, ?_⟩
    · rw [hstep, h4, if_pos rfl]
      rfl
    · rw [hstep, h4]
      exact cleanAbsL_joinSegs (by intro t ht; simp at ht; subst ht; exact hn : ∀ t ∈ [n], wfSeg t = true)
  · -- the path has at least one segment
    have hall : (splitOnChar '/' (d :: ds)).all wfSeg = true := by
      rcases (cleanAbsL_cons_iff (d :: ds)).mp hp with he | hx
      · simp at he
      · exact hx
    have hwfs : ∀ t ∈ splitOnChar '/' (d :: ds), wfSeg t = true := List.all_eq_true.mp hall
    have hsne : splitOnChar '/' (d :: ds) ≠ [] := splitOnChar_ne_nil _ _
    have hjs : joinSegs (splitOnChar '/' (d :: ds)) = d :: ds := joinSegs_splitOnChar _
    have hkey : (d :: ds) ++ '/' :: n = joinSegs (splitOnChar '/' (d :: ds) ++ [n]) := by
      rw [joinSegs_append_single _ _ hsne, hjs]
    have hwf2 : ∀ t ∈ splitOnChar '/' (d :: ds) ++ [n], wfSeg t = true := by
      intro t ht
      rcases List.mem_append.mp ht with hx | hx
      · exact hwfs t hx
      · simp at hx; subst hx; exact hn
    have hclean : cleanAbsL ('/' :: joinSegs (splitOnChar '/' (d :: ds) ++ [n])) = true :=
      cleanAbsL_joinSegs hwf2
    refine ⟨?_, ?_⟩
    · rw [hstep, hkey, goCleanL_cleanAbs hclean, ← hkey, if_neg (by simp)]
      rfl
    · rw [hstep, hkey, goCleanL_cleanAbs hclean]
      exact hclean

/-- `filepath.Base` of a path ending in a separator and a well-formed
name is that name. -/
theorem goBaseL_append (q n : List Char) (hn : wfSeg n = true) :
    goBaseL (q ++ '/' :: n) = n := by
  have hnz : n ≠ [] := wfSeg_ne_nil hn
  have hns : ∀ c ∈ n, ¬ c = '/' := wfSeg_no_sep hn
  have hrev : (q ++ '/' :: n).reverse = n.reverse ++ '/' :: q.reverse := by
    simp
  have hb : goBaseL (q ++ '/' :: n) =
      (if (((q ++ '/' :: n).reverse.dropWhile (· = '/')).takeWhile (· ≠ '/')).isEmpty
       then ['/']
       else (((q ++ '/' :: n).reverse.dropWhile (· = '/')).takeWhile (· ≠ '/')).reverse) := by
    rcases q with _ | ⟨c, cs⟩
    · rfl
    · rw [List.cons_append]
      rfl
  rw [hb, hrev]
  have hdrop : (n.reverse ++ '/' :: q.reverse).dropWhile (· = '/') =
      n.reverse ++ '/' :: q.reverse := by
    rcases hn' : n.reverse with _ | ⟨c, cs⟩
    · exact absurd (by simpa using congrArg List.reverse hn') hnz
    · have hc : c ∈ n := by
        have : c ∈ n.reverse := by rw [hn']; simp
        simpa using this
      rw [List.cons_append, List.dropWhile_cons, if_neg (by simp [hns c hc])]
  rw [hdrop,
    takeWhile_append_of_all (fun c hc => by simp [hns c (List.mem_reverse.mp hc)]),
    show ('/' :: q.reverse).takeWhile (· ≠ '/') = [] from by simp [List.takeWhile_cons]]
  simp [hnz]

/-- The `String`-level consequences for the walk: joining a well-formed
entry name onto a cleaned absolute path yields a cleaned absolute path
whose base name is that entry name. -/
theorem goJoin_props {p n : String} (hp : cleanAbs p = true) (hn : wfName n = true) :
    goBase (goJoin p n) = n ∧ cleanAbs (goJoin p n) = true := by
  obtain ⟨heq, hcl⟩ := goJoinL_props (p := p.data) (n := n.data) hp hn
  constructor
  · show String.mk (goBaseL (goJoinL p.data n.data)) = n
    rw [heq, goBaseL_append _ _ hn]
  · show cleanAbsL (goJoinL p.data n.data) = true
    exact hcl

/-! ## Exclusion is final: no returned path has an excluded base name -/

mutual
/-- Every entry name in the tree is a well-formed file-system name. -/
def wfTree : FSEntry → Bool
  | .file n => wfName n
  | .dir n _ cs => wfName n && wfTreeList cs

/-- `wfTree` over a child list. -/
def wfTreeList : FSList → Bool
  | .nil => true
  | .cons c cs => wfTree c && wfTreeList cs
end

theorem wfTree_name {e : FSEntry} (h : wfTree e = true) : wfName e.name = true := by
  cases e with
  | file n => simpa [wfTree, FSEntry.name] using h
  | dir n er cs =>
    simp only [wfTree, Bool.and_eq_true] at h
    simpa [FSEntry.name] using h.1

mutual
/-- Every path collected by the directory-whitelist sub-walk has a base
name that matches no exclude pattern. -/
theorem subWalkFiles_excl (excl : List String) (path : String) (e : FSEntry)
    (hp : cleanAbs path = true) (ht : wfTree e = true) (hb : goBase path = e.name) :
    ∀ q ∈ subWalkFiles excl path e, ∀ pat ∈ excl, goMatch pat (goBase q) = false :=
  match e, ht with
  | .file n, ht => by
    intro q hq pat hpat
    unfold subWalkFiles at hq
    by_cases hany : (excl.any fun pat => goMatch pat n) = true
    · rw [if_pos hany] at hq
      simp at hq
    · rw [if_neg hany] at hq
      simp only [List.mem_singleton] at hq
      subst hq
      rw [hb]
      have := List.any_eq_false.mp (by simpa using hany) pat hpat
      simpa [FSEntry.name] using this
  | .dir n (some er) cs, _ => by
    intro q hq
    simp [subWalkFiles] at hq
  | .dir n none cs, ht => by
    intro q hq pat hpat
    have hcs : wfTreeList cs = true := by
      simp only [wfTree, Bool.and_eq_true] at ht
      exact ht.2
    exact subWalkList_excl excl path cs hp hcs q (by simpa [subWalkFiles] using hq) pat hpat

/-- `subWalkFiles_excl` over a child list. -/
theorem subWalkList_excl (excl : List String) (path : String) (cs : FSList)
    (hp : cleanAbs path = true) (ht : wfTreeList cs = true) :
    ∀ q ∈ subWalkList excl path cs, ∀ pat ∈ excl, goMatch pat (goBase q) = false :=
  match cs, ht with
  | .nil, _ => by
    intro q hq
    simp [subWalkList] at hq
  | .cons c cs, ht => by
    intro q hq pat hpat
    have hparts : wfTree c = true ∧ wfTreeList cs = true := by
      simpa [wfTreeList] using ht
    have hn : wfName c.name = true := wfTree_name hparts.1
    obtain ⟨hbase, hclean⟩ := goJoin_props hp hn
    unfold subWalkList at hq
    rcases List.mem_append.mp hq with hx | hx
    · exact subWalkFiles_excl excl (goJoin path c.name) c hclean hparts.1 hbase q hx pat hpat
    · exact subWalkList_excl excl path cs hp hparts.2 q hx pat hpat
end

mutual
/-- On a well-formed tree rooted at a cleaned absolute path, every path
the walk collects has a base name matching no exclude pattern. -/
theorem walkEntry_excl (root : String) (f : Filter) (maxD : Int) (path : String)
    (e : FSEntry) (hp : cleanAbs path = true) (ht : wfTree e = true)
    (hb : goBase path = e.name) :
    ∀ ps, (walkEntry root f maxD path e = .ok ps ∨
           walkEntry root f maxD path e = .skipAfter ps) →
      ∀ q ∈ ps, ∀ pat ∈ f.excludeGlobs, goMatch pat (goBase q) = false :=
  match e, ht with
  | .file n, _ => by
    intro ps hps q hq pat hpat
    rcases walkCb_cases root path f maxD (.file n) with
      ⟨er, hcb⟩ | hcb | hcb | ⟨hcb, _, hex, _⟩ | ⟨_, hdir, _⟩
    · have hw : walkEntry root f maxD path (.file n) = .fail er := by
        unfold walkEntry; rw [hcb]
      rcases hps with h | h <;> rw [hw] at h <;> simp at h
    · have hw : walkEntry root f maxD path (.file n) = .skipAfter [] := by
        unfold walkEntry; rw [hcb]
      rcases hps with h | h <;> rw [hw] at h
      · simp at h
      · simp only [WalkOut.skipAfter.injEq] at h
        subst h; simp at hq
    · have hw : walkEntry root f maxD path (.file n) = .ok [] := by
        unfold walkEntry; rw [hcb]
      rcases hps with h | h <;> rw [hw] at h
      · simp only [WalkOut.ok.injEq] at h
        subst h; simp at hq
      · simp at h
    · have hw : walkEntry root f maxD path (.file n) = .ok [path] := by
        unfold walkEntry; rw [hcb]
      rcases hps with h | h <;> rw [hw] at h
      · simp only [WalkOut.ok.injEq] at h
        subst h
        simp only [List.mem_singleton] at hq
        subst hq
        rw [hb]
        simpa [FSEntry.name] using hex pat hpat
      · simp at h
    · simp [FSEntry.isDir] at hdir
  | .dir n oe cs, ht => by
    intro ps hps q hq pat hpat
    have htcs : wfTreeList cs = true := by
      simp only [wfTree, Bool.and_eq_true] at ht
      exact ht.2
    rcases walkCb_cases root path f maxD (.dir n oe cs) with
      ⟨er, hcb⟩ | hcb | hcb | ⟨_, hdir, _⟩ | ⟨hcb, _, _⟩
    · have hw : walkEntry root f maxD path (.dir n oe cs) = .fail er := by
        unfold walkEntry; rw [hcb]
      rcases hps with h | h <;> rw [hw] at h <;> simp at h
    · have hw : walkEntry root f maxD path (.dir n oe cs) = .ok [] := by
        unfold walkEntry; rw [hcb]
      rcases hps with h | h <;> rw [hw] at h
      · simp only [WalkOut.ok.injEq] at h
        subst h; simp at hq
      · simp at h
    · cases oe with
      | some e₂ =>
        have hw : walkEntry root f maxD path (.dir n (some e₂) cs) = .fail e₂ := by
          unfold walkEntry; rw [hcb]
        rcases hps with h | h <;> rw [hw] at h <;> simp at h
      | none =>
        cases hwl : walkList root f maxD path cs with
        | fail e₂ =>
          have hw : walkEntry root f maxD path (.dir n none cs) = .fail e₂ := by
            unfold walkEntry; rw [hcb]; dsimp only; rw [hwl]
          rcases hps with h | h <;> rw [hw] at h <;> simp at h
        | ok ps₂ =>
          have hw : walkEntry root f maxD path (.dir n none cs) = .ok ([] ++ ps₂) := by
            unfold walkEntry; rw [hcb]; dsimp only; rw [hwl]
          rcases hps with h | h <;> rw [hw] at h
          · simp only [List.nil_append, WalkOut.ok.injEq] at h
            subst h
            exact walkList_excl root f maxD path cs hp htcs ps₂ (Or.inl hwl) q hq pat hpat
          · simp at h
        | skipAfter ps₂ =>
          have hw : walkEntry root f maxD path (.dir n none cs) = .ok ([] ++ ps₂) := by
            unfold walkEntry; rw [hcb]; dsimp only; rw [hwl]
          rcases hps with h | h <;> rw [hw] at h
          · simp only [List.nil_append, WalkOut.ok.injEq] at h
            subst h
            exact walkList_excl root f maxD path cs hp htcs ps₂ (Or.inr hwl) q hq pat hpat
          · simp at h
    · simp [FSEntry.isDir] at hdir
    · have hw : walkEntry root f maxD path (.dir n oe cs) =
          .ok (subWalkFiles f.excludeGlobs path (.dir n oe cs)) := by
        unfold walkEntry; rw [hcb]
      rcases hps with h | h <;> rw [hw] at h
      · simp only [WalkOut.ok.injEq] at h
        subst h
        exact subWalkFiles_excl f.excludeGlobs path (.dir n oe cs) hp ht hb q hq pat hpat
      · simp at h

/-- `walkEntry_excl` over a child list. -/
theorem walkList_excl (root : String) (f : Filter) (maxD : Int) (path : String)
    (cs : FSList) (hp : cleanAbs path = true) (ht : wfTreeList cs = true) :
    ∀ ps, (walkList root f maxD path cs = .ok ps ∨
           walkList root f maxD path cs = .skipAfter ps) →
      ∀ q ∈ ps, ∀ pat ∈ f.excludeGlobs, goMatch pat (goBase q) = false :=
  match cs, ht with
  | .nil, _ => by
    intro ps hps q hq
    rcases hps with h | h
    · simp only [walkList, WalkOut.ok.injEq] at h
      subst h; simp at hq
    · simp [walkList] at h
  | .cons c cs, ht => by
    intro ps hps q hq pat hpat
    have hparts : wfTree c = true ∧ wfTreeList cs = true := by
      simpa [wfTreeList] using ht
    obtain ⟨hbase, hclean⟩ := goJoin_props hp (wfTree_name hparts.1)
    cases hwe : walkEntry root f maxD (goJoin path c.name) c with
    | fail e₂ =>
      have hw : walkList root f maxD path (.cons c cs) = .fail e₂ := by
        unfold walkList; rw [hwe]
      rcases hps with h | h <;> rw [hw] at h <;> simp at h
    | skipAfter ps₁ =>
      have hw : walkList root f maxD path (.cons c cs) = .ok ps₁ := by
        unfold walkList; rw [hwe]
      rcases hps with h | h <;> rw [hw] at h
      · simp only [WalkOut.ok.injEq] at h
        subst h
        exact walkEntry_excl root f maxD (goJoin path c.name) c hclean hparts.1 hbase
          ps₁ (Or.inr hwe) q hq pat hpat
      · simp at h
    | ok ps₁ =>
      cases hwl : walkList root f maxD path cs with
      | fail e₂ =>
        have hw : walkList root f maxD path (.cons c cs) = .fail e₂ := by
          unfold walkList; rw [hwe]; dsimp only; rw [hwl]
        rcases hps with h | h <;> rw [hw] at h <;> simp at h
      | ok ps₂ =>
        have hw : walkList root f maxD path (.cons c cs) = .ok (ps₁ ++ ps₂) := by
          unfold walkList; rw [hwe]; dsimp only; rw [hwl]
        rcases hps with h | h <;> rw [hw] at h
        · simp only [WalkOut.ok.injEq] at h
          subst h
          rcases List.mem_append.mp hq with hx | hx
          · exact walkEntry_excl root f maxD (goJoin path c.name) c hclean hparts.1 hbase
              ps₁ (Or.inl hwe) q hx pat hpat
          · exact walkList_excl root f maxD path cs hp hparts.2 ps₂ (Or.inl hwl) q hx pat hpat
        · simp at h
      | skipAfter ps₂ =>
        have hw : walkList root f maxD path (.cons c cs) = .ok (ps₁ ++ ps₂) := by
          unfold walkList; rw [hwe]; dsimp only; rw [hwl]
        rcases hps with h | h <;> rw [hw] at h
        · simp only [WalkOut.ok.injEq] at h
          subst h
          rcases List.mem_append.mp hq with hx | hx
          · exact walkEntry_excl root f maxD (goJoin path c.name) c hclean hparts.1 hbase
              ps₁ (Or.inl hwe) q hx pat hpat
          · exact walkList_excl root f maxD path cs hp hparts.2 ps₂ (Or.inr hwl) q hx pat hpat
        · simp at h
end

/-- C3: exclusion is applied before inclusion — for every filter
configuration and every well-formed directory tree (rooted at a cleaned
absolute path whose base name is the root entry's name), a path whose base
name matches at least one exclude pattern is never present in the result
of `findMatchingFiles`, even if it also matches an include pattern; this
holds both for the main walk and for the directory-whitelist sub-walk,
whose collected paths are covered by the same result list. -/
theorem c3_exclusion_first (root : String) (e : FSEntry) (f : Filter) (maxD : Int)
    (ps : List String) (hr : cleanAbs root = true) (ht : wfTree e = true)
    (hb : goBase root = e.name)
    (hok : findMatchingFiles root (.present e) f maxD = .ok ps) :
    ∀ q ∈ ps, ∀ pat ∈ f.excludeGlobs, goMatch pat (goBase q) = false := by
  intro q hq pat hpat
  unfold findMatchingFiles at hok
  dsimp only at hok
  cases hw : walkEntry root f maxD root e with
  | fail e₂ =>
    rw [hw] at hok
    exact absurd hok (by simp)
  | ok ps₂ =>
    rw [hw] at hok
    simp only [Except.ok.injEq] at hok
    subst hok
    exact walkEntry_excl root f maxD root e hr ht hb ps₂ (Or.inl hw) q hq pat hpat
  | skipAfter ps₂ =>
    rw [hw] at hok
    simp only [Except.ok.injEq] at hok
    subst hok
    exact walkEntry_excl root f maxD root e hr ht hb ps₂ (Or.inr hw) q hq pat hpat

/-- Witness for C3: the hypotheses hold at a concrete tree — exclude
`*.log`, include `*.log` and `*.go` (the excluded file also matches an
include pattern) — and the conclusion follows by applying the theorem. -/
theorem c3_exclusion_first_witness :
    cleanAbs "/r" = true ∧
    wfTree (.dir "r" none (.cons (.file "a.log") (.cons (.file "b.go") .nil))) = true ∧
    goBase "/r" = "r" ∧
    findMatchingFiles "/r"
      (.present (.dir "r" none (.cons (.file "a.log") (.cons (.file "b.go") .nil))))
      (processFilters ["*.log"] ["*.log", "*.go"]) (-1) = .ok ["/r/b.go"] ∧
    (∀ q ∈ ["/r/b.go"], ∀ pat ∈ (processFilters ["*.log"] ["*.log", "*.go"]).excludeGlobs,
      goMatch pat (goBase q) = false) :=
  ⟨by decide, by decide, by decide, by rfl,
   c3_exclusion_first "/r"
     (.dir "r" none (.cons (.file "a.log") (.cons (.file "b.go") .nil)))
     (processFilters ["*.log"] ["*.log", "*.go"]) (-1) ["/r/b.go"]
     (by decide) (by decide) (by decide) (by rfl)⟩

/-! ## The depth bound on the main walk -/

mutual
/-- No directory in the tree has a base name equal to an include pattern:
the directory whitelist (which performs no depth check) never fires. -/
def noDirIncl (f : Filter) : FSEntry → Bool
  | .file _ => true
  | .dir n _ cs => !(f.includeGlobs.any (fun pat => n = pat)) && noDirInclList f cs

/-- `noDirIncl` over a child list. -/
def noDirInclList (f : Filter) : FSList → Bool
  | .nil => true
  | .cons c cs => noDirIncl f c && noDirInclList f cs
end

mutual
/-- When the directory whitelist never fires, every path the walk
collects was added by the file branch of the callback and therefore
passed its depth check. -/
theorem walkEntry_depth (root : String) (f : Filter) (maxD : Int) (path : String)
    (e : FSEntry) (hnd : noDirIncl f e = true) :
    ∀ ps, (walkEntry root f maxD path e = .ok ps ∨
           walkEntry root f maxD path e = .skipAfter ps) →
      ∀ q ∈ ps, ∃ rel, goRel root q = .ok rel ∧
        (maxD = -1 ∨ (countSepS rel : Int) < maxD + 1) :=
  match e, hnd with
  | .file n, _ => by
    intro ps hps q hq
    rcases walkCb_cases root path f maxD (.file n) with
      ⟨er, hcb⟩ | hcb | hcb | ⟨hcb, _, _, hrel⟩ | ⟨_, hdir, _⟩
    · have hw : walkEntry root f maxD path (.file n) = .fail er := by
        unfold walkEntry; rw [hcb]
      rcases hps with h | h <;> rw [hw] at h <;> simp at h
    · have hw : walkEntry root f maxD path (.file n) = .skipAfter [] := by
        unfold walkEntry; rw [hcb]
      rcases hps with h | h <;> rw [hw] at h
      · simp at h
      · simp only [WalkOut.skipAfter.injEq] at h
        subst h; simp at hq
    · have hw : walkEntry root f maxD path (.file n) = .ok [] := by
        unfold walkEntry; rw [hcb]
      rcases hps with h | h <;> rw [hw] at h
      · simp only [WalkOut.ok.injEq] at h
        subst h; simp at hq
      · simp at h
    · have hw : walkEntry root f maxD path (.file n) = .ok [path] := by
        unfold walkEntry; rw [hcb]
      rcases hps with h | h <;> rw [hw] at h
      · simp only [WalkOut.ok.injEq] at h
        subst h
        simp only [List.mem_singleton] at hq
        subst hq
        exact hrel
      · simp at h
    · simp [FSEntry.isDir] at hdir
  | .dir n oe cs, hnd => by
    intro ps hps q hq
    have hparts : (f.includeGlobs.any fun pat => decide (n = pat)) = false ∧
        noDirInclList f cs = true := by
      simpa [noDirIncl] using hnd
    rcases walkCb_cases root path f maxD (.dir n oe cs) with
      ⟨er, hcb⟩ | hcb | hcb | ⟨_, hdir, _⟩ | ⟨_, _, _, _, hmem⟩
    · have hw : walkEntry root f maxD path (.dir n oe cs) = .fail er := by
        unfold walkEntry; rw [hcb]
      rcases hps with h | h <;> rw [hw] at h <;> simp at h
    · have hw : walkEntry root f maxD path (.dir n oe cs) = .ok [] := by
        unfold walkEntry; rw [hcb]
      rcases hps with h | h <;> rw [hw] at h
      · simp only [WalkOut.ok.injEq] at h
        subst h; simp at hq
      · simp at h
    · cases oe with
      | some e₂ =>
        have hw : walkEntry root f maxD path (.dir n (some e₂) cs) = .fail e₂ := by
          unfold walkEntry; rw [hcb]
        rcases hps with h | h <;> rw [hw] at h <;> simp at h
      | none =>
        cases hwl : walkList root f maxD path cs with
        | fail e₂ =>
          have hw : walkEntry root f maxD path (.dir n none cs) = .fail e₂ := by
            unfold walkEntry; rw [hcb]; dsimp only; rw [hwl]
          rcases hps with h | h <;> rw [hw] at h <;> simp at h
        | ok ps₂ =>
          have hw : walkEntry root f maxD path (.dir n none cs) = .ok ([] ++ ps₂) := by
            unfold walkEntry; rw [hcb]; dsimp only; rw [hwl]
          rcases hps with h | h <;> rw [hw] at h
          · simp only [List.nil_append, WalkOut.ok.injEq] at h
            subst h
            exact walkList_depth root f maxD path cs hparts.2 ps₂ (Or.inl hwl) q hq
          · simp at h
        | skipAfter ps₂ =>
          have hw : walkEntry root f maxD path (.dir n none cs) = .ok ([] ++ ps₂) := by
            unfold walkEntry; rw [hcb]; dsimp only; rw [hwl]
          rcases hps with h | h <;> rw [hw] at h
          · simp only [List.nil_append, WalkOut.ok.injEq] at h
            subst h
            exact walkList_depth root f maxD path cs hparts.2 ps₂ (Or.inr hwl) q hq
          · simp at h
    · simp [FSEntry.isDir] at hdir
    · have hfalse := List.any_eq_false.mp hparts.1 n hmem
      simp at hfalse

/-- `walkEntry_depth` over a child list. -/
theorem walkList_depth (root : String) (f : Filter) (maxD : Int) (path : String)
    (cs : FSList) (hnd : noDirInclList f cs = true) :
    ∀ ps, (walkList root f maxD path cs = .ok ps ∨
           walkList root f maxD path cs = .skipAfter ps) →
      ∀ q ∈ ps, ∃ rel, goRel root q = .ok rel ∧
        (maxD = -1 ∨ (countSepS rel : Int) < maxD + 1) :=
  match cs, hnd with
  | .nil, _ => by
    intro ps hps q hq
    rcases hps with h | h
    · simp only [walkList, WalkOut.ok.injEq] at h
      subst h; simp at hq
    · simp [walkList] at h
  | .cons c cs, hnd => by
    intro ps hps q hq
    have hparts : noDirIncl f c = true ∧ noDirInclList f cs = true := by
      simpa [noDirInclList] using hnd
    cases hwe : walkEntry root f maxD (goJoin path c.name) c with
    | fail e₂ =>
      have hw : walkList root f maxD path (.cons c cs) = .fail e₂ := by
        unfold walkList; rw [hwe]
      rcases hps with h | h <;> rw [hw] at h <;> simp at h
    | skipAfter ps₁ =>
      have hw : walkList root f maxD path (.cons c cs) = .ok ps₁ := by
        unfold walkList; rw [hwe]
      rcases hps with h | h <;> rw [hw] at h
      · simp only [WalkOut.ok.injEq] at h
        subst h
        exact walkEntry_depth root f maxD (goJoin path c.name) c hparts.1
          ps₁ (Or.inr hwe) q hq
      · simp at h
    | ok ps₁ =>
      cases hwl : walkList root f maxD path cs with
      | fail e₂ =>
        have hw : walkList root f maxD path (.cons c cs) = .fail e₂ := by
          unfold walkList; rw [hwe]; dsimp only; rw [hwl]
        rcases hps with h | h <;> rw [hw] at h <;> simp at h
      | ok ps₂ =>
        have hw : walkList root f maxD path (.cons c cs) = .ok (ps₁ ++ ps₂) := by
          unfold walkList; rw [hwe]; dsimp only; rw [hwl]
        rcases hps with h | h <;> rw [hw] at h
        · simp only [WalkOut.ok.injEq] at h
          subst h
          rcases List.mem_append.mp hq with hx | hx
          · exact walkEntry_depth root f maxD (goJoin path c.name) c hparts.1
              ps₁ (Or.inl hwe) q hx
          · exact walkList_depth root f maxD path cs hparts.2 ps₂ (Or.inl hwl) q hx
        · simp at h
      | skipAfter ps₂ =>
        have hw : walkList root f maxD path (.cons c cs) = .ok (ps₁ ++ ps₂) := by
          unfold walkList; rw [hwe]; dsimp only; rw [hwl]
        rcases hps with h | h <;> rw [hw] at h
        · simp only [WalkOut.ok.injEq] at h
          subst h
          rcases List.mem_append.mp hq with hx | hx
          · exact walkEntry_depth root f maxD (goJoin path c.name) c hparts.1
              ps₁ (Or.inl hwe) q hx
          · exact walkList_depth root f maxD path cs hparts.2 ps₂ (Or.inr hwl) q hx
        · simp at h
end

/-- C1 (amended): the depth bound governs the main walk but not the
directory-whitelist sub-walk.  Whenever no directory in the tree has a
base name equal to an include pattern — so the whitelist sub-walk, which
performs no depth check, never fires — every path returned by
`findMatchingFiles` has a relative path with at most `maxD` separators
when `maxD ≥ 0`; the disjunct `maxD = -1` is the unlimited sentinel, for
which the callback's depth test is vacuous. -/
theorem c1_depth_bound (root : String) (e : FSEntry) (f : Filter) (maxD : Int)
    (ps : List String) (hnd : noDirIncl f e = true)
    (hok : findMatchingFiles root (.present e) f maxD = .ok ps) :
    ∀ q ∈ ps, ∃ rel, goRel root q = .ok rel ∧
      (maxD = -1 ∨ (countSepS rel : Int) ≤ maxD) := by
  intro q hq
  unfold findMatchingFiles at hok
  dsimp only at hok
  have hmain : ∃ rel, goRel root q = .ok rel ∧
      (maxD = -1 ∨ (countSepS rel : Int) < maxD + 1) := by
    cases hw : walkEntry root f maxD root e with
    | fail e₂ =>
      rw [hw] at hok
      exact absurd hok (by simp)
    | ok ps₂ =>
      rw [hw] at hok
      simp only [Except.ok.injEq] at hok
      subst hok
      exact walkEntry_depth root f maxD root e hnd ps₂ (Or.inl hw) q hq
    | skipAfter ps₂ =>
      rw [hw] at hok
      simp only [Except.ok.injEq] at hok
      subst hok
      exact walkEntry_depth root f maxD root e hnd ps₂ (Or.inr hw) q hq
  obtain ⟨rel, hrel, hd⟩ := hmain
  exact ⟨rel, hrel, by omega⟩

/-- C1 counterexample: with include pattern `sub` and `maxDepth = 0`, the
directory whitelist fires on `/r/sub` and its sub-walk collects
`/r/sub/deep/f.txt`, whose relative path has 2 separators — the returned
file's depth exceeds the configured bound 0, refuting the claim that the
bound applies to the files collected by the directory-whitelist sub-walk. -/
theorem c1_counterexample :
    findMatchingFiles "/r"
      (.present (.dir "r" none (.cons (.dir "sub" none
        (.cons (.dir "deep" none (.cons (.file "f.txt") .nil)) .nil)) .nil)))
      (processFilters [] ["sub"]) 0
      = .ok ["/r/sub/deep/f.txt"] ∧
    goRel "/r" "/r/sub/deep/f.txt" = .ok "sub/deep/f.txt" ∧
    countSepS "sub/deep/f.txt" = 2 ∧ ¬ ((2 : Int) ≤ 0) :=
  ⟨rfl, rfl, by decide, by decide⟩

/-- Witness for C1: the hypotheses of the amended depth-bound theorem hold
at a concrete tree (no directory name among the include patterns) and the
conclusion follows by applying the theorem. -/
theorem c1_depth_bound_witness :
    noDirIncl (processFilters [] []) (.dir "r" none (.cons (.file "a.go")
      (.cons (.dir "sub" none (.cons (.file "deep.txt") .nil)) .nil))) = true ∧
    findMatchingFiles "/r"
      (.present (.dir "r" none (.cons (.file "a.go")
        (.cons (.dir "sub" none (.cons (.file "deep.txt") .nil)) .nil))))
      (processFilters [] []) 0 = .ok ["/r/a.go"] ∧
    (∀ q ∈ ["/r/a.go"], ∃ rel, goRel "/r" q = .ok rel ∧
      ((0 : Int) = -1 ∨ (countSepS rel : Int) ≤ 0)) :=
  ⟨by decide, by rfl,
   c1_depth_bound "/r"
     (.dir "r" none (.cons (.file "a.go")
       (.cons (.dir "sub" none (.cons (.file "deep.txt") .nil)) .nil)))
     (processFilters [] []) 0 ["/r/a.go"] (by decide) (by rfl)⟩

/-! ## Error propagation (C8) -/

/-- C8 counterexample: the directory-whitelist sub-walk discards its error
argument (`func(path string, d fs.DirEntry, _ error) error`), so a
directory read error inside a whitelisted directory is swallowed: the
tree contains an unreadable directory (`bad`, read error
"permission denied"), yet `findMatchingFiles` returns a successful
partial result instead of surfacing the error. -/
theorem c8_counterexample :
    findMatchingFiles "/r"
      (.present (.dir "r" none (.cons (.dir "sub" none
        (.cons (.file "a.txt")
          (.cons (.dir "bad" (some "permission denied") .nil) .nil))) .nil)))
      (processFilters [] ["sub"]) (-1)
      = .ok ["/r/sub/a.txt"] := rfl

/-- C8 (amended): outside the whitelist sub-walk, traversal errors do
surface and produce no tree output: a missing root makes
`findMatchingFiles` return its error; a directory read error reached by
the main walk (callback returning nil) aborts the walk with that error;
and the caller turns any `findMatchingFiles` error into an error result
with no rendered tree. -/
theorem c8_error_propagation :
    (∀ (root er : String) (f : Filter) (maxD : Int),
      findMatchingFiles root (.missing er) f maxD = .error er) ∧
    (∀ (root : String) (f : Filter) (maxD : Int) (path n er : String) (cs : FSList)
        (added : List String),
      walkCb root f maxD path (.dir n (some er) cs) = .next added →
      walkEntry root f maxD path (.dir n (some er) cs) = .fail er) ∧
    (∀ (root : String) (fsys : RootFS) (f : Filter) (maxD : Int) (er : String),
      findMatchingFiles root fsys f maxD = .error er →
      runPipeline root fsys f maxD = .error ("error finding files: " ++ er)) := by
  refine ⟨fun root er f maxD => rfl, ?_, ?_⟩
  · intro root f maxD path n er cs added hcb
    unfold walkEntry
    rw [hcb]
  · intro root fsys f maxD er h
    unfold runPipeline
    rw [h]

/-- Witness for C8: the amended propagation facts applied at concrete
inputs — a missing root, a directory whose read fails under the main
walk, and the pipeline turning the traversal error into an error output. -/
theorem c8_error_propagation_witness :
    findMatchingFiles "/r" (.missing "lstat /r: no such file or directory")
      (processFilters [] []) (-1) = .error "lstat /r: no such file or directory" ∧
    (walkCb "/r" (processFilters [] []) (-1) "/r/bad"
        (.dir "bad" (some "open /r/bad: permission denied") .nil) = .next [] ∧
      walkEntry "/r" (processFilters [] []) (-1) "/r/bad"
        (.dir "bad" (some "open /r/bad: permission denied") .nil) =
        .fail "open /r/bad: permission denied") ∧
    runPipeline "/r" (.missing "lstat /r: no such file or directory")
      (processFilters [] []) (-1) =
      .error ("error finding files: " ++ "lstat /r: no such file or directory") :=
  ⟨c8_error_propagation.1 "/r" "lstat /r: no such file or directory"
     (processFilters [] []) (-1),
   ⟨rfl, c8_error_propagation.2.1 "/r" (processFilters [] []) (-1) "/r/bad" "bad"
     "open /r/bad: permission denied" .nil [] rfl⟩,
   c8_error_propagation.2.2 "/r" (.missing "lstat /r: no such file or directory")
     (processFilters [] []) (-1) "lstat /r: no such file or directory"
     (c8_error_propagation.1 "/r" "lstat /r: no such file or directory"
       (processFilters [] []) (-1))⟩

/-! ## `Dir` on cleaned absolute paths -/

/-- The `Clean` loop on well-formed segments followed by a trailing
separator: the trailing separator is skipped as an empty element, so the
outcome is the same as without it. -/
theorem cleanLoop_segs_slash :
    ∀ (segs : List (List Char)), (∀ s ∈ segs, wfSeg s) →
    ∀ (fuel : Nat) (outRev : List Char), (joinSegs segs).length + 1 ≤ fuel →
    cleanLoop true fuel (joinSegs segs ++ ['/']) outRev 1 = pushSegs outRev segs := by
  intro segs
  induction segs with
  | nil =>
    intro _ fuel outRev hfuel
    cases fuel with
    | zero => simp at hfuel
    | succ f =>
      show cleanLoop true (f + 1) ('/' :: []) outRev 1 = pushSegs outRev []
      rw [cleanLoop_slash, cleanLoop_nil]
      rfl
  | cons s rest ih =>
    intro hwf fuel outRev hfuel
    have hs : wfSeg s = true := hwf s (by simp)
    obtain ⟨hne, hnosl, hdot, hdotdot⟩ :
        (¬ s.isEmpty = true) ∧ (¬ s.contains '/' = true) ∧ s ≠ ['.'] ∧ s ≠ ['.', '.'] := by
      simpa [wfSeg] using hs
    have hnosl' : ∀ x ∈ s, x ≠ '/' :=
      contains_false_forall (by simpa using hnosl)
    cases s with
    | nil => simp at hne
    | cons c s' =>
    have hc : c ≠ '/' := hnosl' c (by simp)
    have hkey : joinSegs ((c :: s') :: rest) ++ ['/'] =
        (c :: s') ++ '/' :: (joinSegs rest ++ if rest.isEmpty then [] else ['/']) := by
      cases rest with
      | nil => rfl
      | cons r rs =>
        rw [joinSegs_cons _ _ (by simp)]
        simp [joinSegs]
    rw [hkey]
    have hlen2 : s'.length + 2 ≤ fuel ∧
        ((joinSegs rest).length + s'.length + 3 ≤ fuel ∨ rest = []) := by
      cases rest with
      | nil =>
        refine ⟨?_, Or.inr rfl⟩
        have h2 := hfuel
        simp only [joinSegs, List.length_cons] at h2
        omega
      | cons r rs =>
        have h2 := hfuel
        rw [joinSegs_cons _ _ (by simp)] at h2
        simp only [List.length_append, List.length_cons] at h2
        exact ⟨by omega, Or.inl (by omega)⟩
    rw [List.cons_append]
    cases fuel with
    | zero => omega
    | succ f =>
      unfold cleanLoop
      rw [if_neg (by simpa using hc)]
      rw [if_neg ?hg1c]
      case hg1c =>
        rintro ⟨hcd, hrest'⟩
        subst hcd
        rcases hrest' with he | hh
        · simp at he
        · rcases hs' : s' with _ | ⟨x, xs⟩
          · exact hdot (by simp [hs'])
          · rw [hs'] at hh
            simp only [List.cons_append, List.head?_cons, Option.some.injEq] at hh
            exact hnosl' x (by simp [hs']) hh
      rw [if_neg ?hg2c]
      case hg2c =>
        rintro ⟨hcd, hh, hrest'⟩
        subst hcd
        rcases hs' : s' with _ | ⟨x, xs⟩
        · rw [hs'] at hh; simp at hh
        · rw [hs'] at hh hrest'
          simp only [List.cons_append, List.head?_cons, Option.some.injEq] at hh
          subst hh
          rcases hxs : xs with _ | ⟨y, ys⟩
          · exact hdotdot (by simp [hs', hxs])
          · rw [hxs] at hrest'
            rcases hrest' with he | hh₂
            · simp at he
            · simp only [List.cons_append, List.tail_cons, List.head?_cons,
                Option.some.injEq] at hh₂
              exact hnosl' y (by simp [hs', hxs]) hh₂
      dsimp only
      rw [show (s' ++ '/' :: (joinSegs rest ++ if rest.isEmpty then [] else ['/'])).takeWhile
          (fun x => decide (x ≠ '/')) = s' from ?htwc]
      case htwc =>
        rw [takeWhile_append_of_all (fun x hx => by simpa using hnosl' x (by simp [hx]))]
        simp [List.takeWhile_cons]
      rw [show (s' ++ '/' :: (joinSegs rest ++ if rest.isEmpty then [] else ['/'])).dropWhile
          (fun x => decide (x ≠ '/')) =
          '/' :: (joinSegs rest ++ if rest.isEmpty then [] else ['/']) from ?hdwc]
      case hdwc =>
        rw [dropWhile_append_of_all (fun x hx => by simpa using hnosl' x (by simp [hx]))]
        simp [List.dropWhile_cons]
      cases f with
      | zero => omega
      | succ f₂ =>
        rw [cleanLoop_slash]
        cases rest with
        | nil =>
          rw [show (joinSegs ([] : List (List Char)) ++
              if ([] : List (List Char)).isEmpty = true then ([] : List Char) else ['/']) =
              ([] : List Char) from rfl, cleanLoop_nil]
          simp only [pushSegs]
          by_cases hlen : outRev.length = 1
          · rw [if_pos hlen, if_neg (by simp [hlen])]
          · rw [if_neg hlen, if_pos (by simp [hlen])]
        | cons r rs =>
          rw [show (joinSegs (r :: rs) ++
              if (r :: rs).isEmpty = true then ([] : List Char) else ['/']) =
              joinSegs (r :: rs) ++ ['/'] from rfl]
          rw [ih (fun t ht => hwf t (by simp [ht])) f₂ _ (by
            rcases hlen2.2 with h3 | h3
            · omega
            · exact absurd h3 (by simp))]
          simp only [pushSegs]
          by_cases hlen : outRev.length = 1
          · simp [hlen, List.length_append]
          · simp [hlen, List.length_append]

/-- `filepath.Clean` strips a trailing separator from a cleaned absolute
path. -/
theorem goCleanL_append_slash {p : List Char} (h : cleanAbsL p = true) :
    goCleanL (p ++ ['/']) = p := by
  rcases p with _ | ⟨c, rest⟩
  · simp [cleanAbsL] at h
  have hc : c = '/' := by
    by_contra hne
    unfold cleanAbsL at h
    split at h
    · rename_i heq
      injection heq with h1 _
      exact hne h1
    · exact Bool.noConfusion h
  subst hc
  have h' : rest.isEmpty = true ∨ (splitOnChar '/' rest).all wfSeg = true := by
    simpa [cleanAbsL] using h
  rcases h' with he | hall
  · have : rest = [] := by simpa using he
    subst this
    rfl
  · rcases hrest : rest with _ | ⟨d, ds⟩
    · rfl
    · rw [← hrest]
      have hne : rest ≠ [] := by rw [hrest]; simp
      have hwf : ∀ t ∈ splitOnChar '/' rest, wfSeg t = true :=
        List.all_eq_true.mp hall
      have hstep : goCleanL (('/' :: rest) ++ ['/']) =
          (if ((cleanLoop true (rest ++ ['/']).length (rest ++ ['/']) ['/'] 1).reverse).isEmpty
           then ['.']
           else (cleanLoop true (rest ++ ['/']).length (rest ++ ['/']) ['/'] 1).reverse) := by
        rw [List.cons_append]
        rfl
      rw [hstep]
      have hjs := joinSegs_splitOnChar rest
      have hloop : cleanLoop true (rest ++ ['/']).length (rest ++ ['/']) ['/'] 1 =
          pushSegs ['/'] (splitOnChar '/' rest) := by
        conv_lhs => rw [← hjs]
        exact cleanLoop_segs_slash _ hwf _ _ (by rw [hjs]; simp)
      rw [hloop, pushSegs_root_reverse _ (splitOnChar_ne_nil _ _)
        (fun t ht => by
          have := hwf t ht
          simp only [wfSeg] at this
          exact fun hemp => by simp [hemp] at this), hjs]
      simp [hne]

/-- `filepath.Dir` of a path ending in a separator and a well-formed name
drops that last element (when the stem is empty the parent is `/`). -/
theorem goDirL_append {q n : List Char} (hq : q = [] ∨ cleanAbsL q = true)
    (hn : wfSeg n = true) :
    goDirL (q ++ '/' :: n) = if q = [] then ['/'] else q := by
  have hns : ∀ c ∈ n, ¬ c = '/' := wfSeg_no_sep hn
  unfold goDirL
  have hrev : (q ++ '/' :: n).reverse = n.reverse ++ '/' :: q.reverse := by simp
  rw [hrev,
    dropWhile_append_of_all (fun x hx => by simpa using hns x (List.mem_reverse.mp hx)),
    show ('/' :: q.reverse).dropWhile (fun x => decide (x ≠ '/')) = '/' :: q.reverse from by
      simp [List.dropWhile_cons],
    show ('/' :: q.reverse).reverse = q ++ ['/'] from by simp]
  rcases hq with hq | hq
  · subst hq
    rw [if_pos rfl]
    rfl
  · have hqne : q ≠ [] := by
      intro hnil
      rw [hnil] at hq
      simp [cleanAbsL] at hq
    rw [if_neg hqne]
    exact goCleanL_append_slash hq

/-! ## Paths strictly under the root -/

theorem joinSegs_append (a b : List (List Char)) (ha : a ≠ []) (hb : b ≠ []) :
    joinSegs (a ++ b) = joinSegs a ++ '/' :: joinSegs b := by
  induction a with
  | nil => exact absurd rfl ha
  | cons s rest ih =>
    cases rest with
    | nil =>
      cases b with
      | nil => exact absurd rfl hb
      | cons y ys => rfl
    | cons r rs =>
      rw [List.cons_append, joinSegs_cons _ _ (by simp),
        joinSegs_cons _ _ (by simp), ih (by simp)]
      simp

theorem joinSegs_length_ge :
    ∀ (segs : List (List Char)), (∀ s ∈ segs, wfSeg s = true) →
      segs.length ≤ (joinSegs segs).length + 1 := by
  intro segs
  induction segs with
  | nil => intro _; simp
  | cons s rest ih =>
    intro hwf
    cases rest with
    | nil => simp [joinSegs]
    | cons r rs =>
      have hs : s ≠ [] := wfSeg_ne_nil (hwf s (by simp))
      have hlen : 1 ≤ s.length := by
        cases s with
        | nil => exact absurd rfl hs
        | cons _ _ => simp
      have := ih (fun t ht => hwf t (List.mem_cons_of_mem s ht))
      rw [joinSegs_cons _ _ (by simp)]
      simp only [List.length_cons, List.length_append] at this ⊢
      omega

/-- A cleaned absolute root other than `/` is a slash followed by
non-empty well-formed segments. -/
theorem cleanAbs_shape {root : String} (hr : cleanAbs root = true) (hs : root ≠ "/") :
    ∃ rsegs, rsegs ≠ [] ∧ (∀ s ∈ rsegs, wfSeg s = true) ∧
      root.data = '/' :: joinSegs rsegs := by
  have h : cleanAbsL root.data = true := hr
  rcases hd : root.data with _ | ⟨c, rest⟩
  · rw [hd] at h; simp [cleanAbsL] at h
  have hc : c = '/' := by
    rw [hd] at h
    by_contra hne
    unfold cleanAbsL at h
    split at h
    · rename_i heq
      injection heq with h1 _
      exact hne h1
    · exact Bool.noConfusion h
  subst hc
  have hrne : rest ≠ [] := by
    intro hnil
    subst hnil
    exact hs (String.ext (by simp [hd]))
  rw [hd] at h
  have h' : rest.isEmpty = true ∨ (splitOnChar '/' rest).all wfSeg = true := by
    simpa [cleanAbsL] using h
  rcases h' with he | hall
  · exact absurd (by simpa using he) hrne
  · exact ⟨splitOnChar '/' rest, splitOnChar_ne_nil _ _, List.all_eq_true.mp hall,
      by rw [joinSegs_splitOnChar rest]⟩

theorem under_cleanAbs {root : String} (hr : cleanAbs root = true) (hs : root ≠ "/")
    {segs : List (List Char)} (hg : segs ≠ []) (hwf : ∀ s ∈ segs, wfSeg s = true) :
    cleanAbsL (root.data ++ '/' :: joinSegs segs) = true := by
  obtain ⟨rsegs, hrne, hrwf, hroot⟩ := cleanAbs_shape hr hs
  rw [hroot, show ('/' :: joinSegs rsegs) ++ '/' :: joinSegs segs =
    '/' :: joinSegs (rsegs ++ segs) from by
      rw [joinSegs_append rsegs segs hrne hg, List.cons_append]]
  exact cleanAbsL_joinSegs (fun t ht => by
    rcases List.mem_append.mp ht with hx | hx
    · exact hrwf t hx
    · exact hwf t hx)

theorem under_ne {root : String} (hr : cleanAbs root = true)
    {g : List (List Char)} :
    (⟨root.data ++ '/' :: joinSegs g⟩ : String) ≠ root ∧
    (⟨root.data ++ '/' :: joinSegs g⟩ : String) ≠ "." ∧
    (⟨root.data ++ '/' :: joinSegs g⟩ : String) ≠ "/" := by
  have h : cleanAbsL root.data = true := hr
  rcases hd : root.data with _ | ⟨c, rest⟩
  · rw [hd] at h; simp [cleanAbsL] at h
  have hc : c = '/' := by
    rw [hd] at h
    by_contra hne
    unfold cleanAbsL at h
    split at h
    · rename_i heq
      injection heq with h1 _
      exact hne h1
    · exact Bool.noConfusion h
  subst hc
  refine ⟨?_, ?_, ?_⟩
  · intro heq
    have h2 : ('/' :: rest ++ '/' :: joinSegs g) = root.data := congrArg String.data heq
    rw [hd, List.cons_append] at h2
    have hlen := congrArg List.length h2
    simp only [List.length_cons, List.length_append] at hlen
    omega
  · intro heq
    have h2 : ('/' :: rest ++ '/' :: joinSegs g) = ['.'] := congrArg String.data heq
    rw [List.cons_append] at h2
    injection h2 with hx _
    exact absurd hx (by decide)
  · intro heq
    have h2 : ('/' :: rest ++ '/' :: joinSegs g) = ['/'] := congrArg String.data heq
    rw [List.cons_append] at h2
    injection h2 with _ hx
    have hlen := congrArg List.length hx
    simp only [List.length_append, List.length_cons, List.length_nil] at hlen
    omega

/-- The parent of a path strictly under the root: drop the last segment,
reaching the root itself when only one segment remains. -/
theorem goDir_under_step {root : String} (hr : cleanAbs root = true) (hs : root ≠ "/")
    (segs : List (List Char)) (hg : segs ≠ []) (hwf : ∀ s ∈ segs, wfSeg s = true) :
    goDir ⟨root.data ++ '/' :: joinSegs segs⟩ =
      if segs.length = 1 then root else ⟨root.data ++ '/' :: joinSegs segs.dropLast⟩ := by
  rcases List.eq_nil_or_concat segs with hnil | ⟨front, lastseg, hconc⟩
  · exact absurd hnil hg
  rw [List.concat_eq_append] at hconc
  subst hconc
  have hlast : wfSeg lastseg = true := hwf lastseg (by simp)
  cases front with
  | nil =>
    rw [if_pos (by simp)]
    show String.mk (goDirL (root.data ++ '/' :: joinSegs [lastseg])) = root
    rw [show joinSegs [lastseg] = lastseg from rfl,
      goDirL_append (Or.inr (hr : cleanAbsL root.data = true)) hlast,
      if_neg (by
        intro hnil
        have : cleanAbsL root.data = true := hr
        rw [hnil] at this
        simp [cleanAbsL] at this)]
  | cons f fs =>
    rw [if_neg (by simp)]
    show String.mk (goDirL (root.data ++ '/' :: joinSegs ((f :: fs) ++ [lastseg]))) = _
    rw [joinSegs_append_single _ _ (by simp),
      show root.data ++ '/' :: (joinSegs (f :: fs) ++ '/' :: lastseg) =
        (root.data ++ '/' :: joinSegs (f :: fs)) ++ '/' :: lastseg from by simp,
      goDirL_append (Or.inr (under_cleanAbs hr hs (by simp)
        (fun t ht => hwf t (by simp [List.mem_append] at ht ⊢; tauto)))) hlast,
      if_neg (by simp), List.dropLast_concat]

/-! ## `Rel` on paths strictly under the root -/

theorem joinSegs_head_shape {segs : List (List Char)} (hg : segs ≠ [])
    (hwf : ∀ s ∈ segs, wfSeg s = true) :
    ∃ c l, joinSegs segs = c :: l ∧ c ≠ '/' := by
  cases segs with
  | nil => exact absurd rfl hg
  | cons s rest =>
    have hs := hwf s (by simp)
    have hne := wfSeg_ne_nil hs
    have hns := wfSeg_no_sep hs
    cases s with
    | nil => exact absurd rfl hne
    | cons c s' =>
      cases rest with
      | nil => exact ⟨c, s', rfl, hns c (by simp)⟩
      | cons r rs =>
        exact ⟨c, s' ++ '/' :: joinSegs (r :: rs), by
          rw [joinSegs_cons _ _ (by simp), List.cons_append], hns c (by simp)⟩

theorem joinSegs_takeWhile_ne_nil {segs : List (List Char)} (hg : segs ≠ [])
    (hwf : ∀ s ∈ segs, wfSeg s = true) :
    (joinSegs segs).takeWhile (fun x => decide (x ≠ '/')) ≠ [] := by
  obtain ⟨c, l, heq, hc⟩ := joinSegs_head_shape hg hwf
  rw [heq, List.takeWhile_cons, if_pos (by simpa using hc)]
  simp

/-- The common-prefix loop of `Rel` on a base that is a strict element
prefix of the target: the whole base is stripped and the strict remainder
of the target is returned. -/
theorem relStrip_common (w : List Char)
    (hw : w.takeWhile (fun x => decide (x ≠ '/')) ≠ []) :
    ∀ (a : List (List Char)), a ≠ [] → (∀ s ∈ a, wfSeg s = true) →
    ∀ fuel, a.length + 1 ≤ fuel →
      relStrip fuel (joinSegs a) (joinSegs a ++ '/' :: w) = ([], w) := by
  intro a
  induction a with
  | nil => intro h _ _ _; exact absurd rfl h
  | cons s rest ih =>
    intro _ hwf fuel hfuel
    have hs := hwf s (by simp)
    have hns : ∀ x ∈ s, ¬ x = '/' := wfSeg_no_sep hs
    simp only [List.length_cons] at hfuel
    cases fuel with
    | zero => omega
    | succ f =>
      cases rest with
      | nil =>
        show relStrip (f + 1) s (s ++ '/' :: w) = ([], w)
        unfold relStrip
        dsimp only
        rw [show s.takeWhile (fun x => decide (x ≠ '/')) = s from
          List.takeWhile_eq_self_iff.mpr (fun x hx => by simpa using hns x hx)]
        rw [takeWhile_append_of_all (fun x hx => by simpa using hns x hx)]
        rw [show ('/' :: w).takeWhile (fun x => decide (x ≠ '/')) = [] from by
          simp [List.takeWhile_cons]]
        rw [List.append_nil, if_pos rfl]
        rw [show s.dropWhile (fun x => decide (x ≠ '/')) = [] from
          List.dropWhile_eq_nil_iff.mpr (fun x hx => by simpa using hns x hx)]
        rw [dropWhile_append_of_all (fun x hx => by simpa using hns x hx)]
        rw [show ('/' :: w).dropWhile (fun x => decide (x ≠ '/')) = '/' :: w from by
          simp [List.dropWhile_cons]]
        rw [if_neg (by simp)]
        show relStrip f [] w = ([], w)
        cases f with
        | zero => omega
        | succ f₂ =>
          unfold relStrip
          dsimp only
          rw [if_neg (fun hcc => hw hcc.symm)]
      | cons r rs =>
        rw [joinSegs_cons _ _ (by simp), List.append_assoc, List.cons_append]
        unfold relStrip
        dsimp only
        rw [takeWhile_append_of_all (fun x hx => by simpa using hns x hx)]
        rw [show ('/' :: joinSegs (r :: rs)).takeWhile (fun x => decide (x ≠ '/')) = []
          from by simp [List.takeWhile_cons]]
        rw [takeWhile_append_of_all (fun x hx => by simpa using hns x hx)]
        rw [show ('/' :: (joinSegs (r :: rs) ++ '/' :: w)).takeWhile
            (fun x => decide (x ≠ '/')) = [] from by simp [List.takeWhile_cons]]
        rw [List.append_nil, if_pos rfl]
        rw [dropWhile_append_of_all (fun x hx => by simpa using hns x hx)]
        rw [show ('/' :: joinSegs (r :: rs)).dropWhile (fun x => decide (x ≠ '/')) =
          '/' :: joinSegs (r :: rs) from by simp [List.dropWhile_cons]]
        rw [dropWhile_append_of_all (fun x hx => by simpa using hns x hx)]
        rw [show ('/' :: (joinSegs (r :: rs) ++ '/' :: w)).dropWhile
            (fun x => decide (x ≠ '/')) = '/' :: (joinSegs (r :: rs) ++ '/' :: w)
          from by simp [List.dropWhile_cons]]
        rw [if_neg (by simp)]
        show relStrip f (joinSegs (r :: rs)) (joinSegs (r :: rs) ++ '/' :: w) = ([], w)
        exact ih (by simp) (fun t ht => hwf t (List.mem_cons_of_mem s ht)) f (by
          simp only [List.length_cons] at hfuel ⊢
          omega)

/-- The common-prefix loop on rooted paths: the leading separators are
stripped first, then the common elements. -/
theorem relStrip_rooted (w : List Char)
    (hw : w.takeWhile (fun x => decide (x ≠ '/')) ≠ [])
    (a : List (List Char)) (ha : a ≠ []) (hwf : ∀ s ∈ a, wfSeg s = true) :
    ∀ fuel, a.length + 2 ≤ fuel →
      relStrip fuel ('/' :: joinSegs a) ('/' :: (joinSegs a ++ '/' :: w)) = ([], w) := by
  intro fuel hfuel
  cases fuel with
  | zero => omega
  | succ f =>
    unfold relStrip
    dsimp only
    rw [show ('/' :: joinSegs a).takeWhile (fun x => decide (x ≠ '/')) = [] from by
      simp [List.takeWhile_cons]]
    rw [show ('/' :: (joinSegs a ++ '/' :: w)).takeWhile (fun x => decide (x ≠ '/')) = []
      from by simp [List.takeWhile_cons]]
    rw [if_pos rfl]
    rw [show ('/' :: joinSegs a).dropWhile (fun x => decide (x ≠ '/')) =
      '/' :: joinSegs a from by simp [List.dropWhile_cons]]
    rw [show ('/' :: (joinSegs a ++ '/' :: w)).dropWhile (fun x => decide (x ≠ '/')) =
      '/' :: (joinSegs a ++ '/' :: w) from by simp [List.dropWhile_cons]]
    rw [if_neg (by simp)]
    show relStrip f (joinSegs a) (joinSegs a ++ '/' :: w) = ([], w)
    exact relStrip_common w hw a ha hwf f (by omega)

/-- `filepath.Rel` from the root to a path strictly under it succeeds
and returns the joined segments. -/
theorem goRel_under {root : String} (hr : cleanAbs root = true) (hs : root ≠ "/")
    {segs : List (List Char)} (hg : segs ≠ []) (hwf : ∀ s ∈ segs, wfSeg s = true) :
    goRel root ⟨root.data ++ '/' :: joinSegs segs⟩ = .ok ⟨joinSegs segs⟩ := by
  obtain ⟨rsegs, hrne, hrwf, hroot⟩ := cleanAbs_shape hr hs
  have hclean_t : cleanAbsL (root.data ++ '/' :: joinSegs segs) = true :=
    under_cleanAbs hr hs hg hwf
  have hct : goCleanL (root.data ++ '/' :: joinSegs segs) =
      root.data ++ '/' :: joinSegs segs := goCleanL_cleanAbs hclean_t
  have hcb : goCleanL root.data = root.data := goCleanL_cleanAbs hr
  have hlenJ : 0 < (joinSegs segs).length := by
    obtain ⟨c, l, heq, _⟩ := joinSegs_head_shape hg hwf
    rw [heq]; simp
  unfold goRel goRelL
  dsimp only
  rw [hct, hcb]
  rw [if_neg (by
    intro h
    have hlen := congrArg List.length h
    simp only [List.length_append, List.length_cons] at hlen
    omega)]
  have hbase : (if root.data = ['.'] then ([] : List Char) else root.data) = root.data := by
    rw [if_neg (by
      rw [hroot]
      intro h
      injection h with hx _
      exact absurd hx (by decide))]
  rw [hbase]
  rw [if_neg ?hslash]
  case hslash =>
    intro hne
    apply hne
    rw [eq_iff_iff]
    constructor
    · intro _
      rw [hroot, List.cons_append]
      rfl
    · intro _
      rw [hroot]
      rfl
  have hw : (joinSegs segs).takeWhile (fun x => decide (x ≠ '/')) ≠ [] :=
    joinSegs_takeWhile_ne_nil hg hwf
  have hstrip : relStrip
      (root.data.length + (root.data ++ '/' :: joinSegs segs).length + 1)
      root.data (root.data ++ '/' :: joinSegs segs) = ([], joinSegs segs) := by
    rw [hroot, List.cons_append]
    apply relStrip_rooted (joinSegs segs) hw rsegs hrne hrwf
    have h1 : rsegs.length ≤ (joinSegs rsegs).length + 1 := joinSegs_length_ge rsegs hrwf
    simp only [List.length_cons, List.length_append]
    omega
  rw [hstrip]
  dsimp only
  rw [if_neg (by simp)]
  rw [if_neg (by simp)]

/-! ## The ancestor chains of the renderer and of the specification -/

/-- Modelled from the spec: the ancestor directories strictly between a
path and the root, collected by walking upward through the parent
directory until reaching the root (spec section 8, round-trip property:
"all distinct ancestor directory base names between each path and the
root").  The fuel bounds the parent iteration exactly as the renderer
bounds its own ancestor loop. -/
def specAncestorsBetween (root : String) : Nat → String → List String
  | 0, _ => []
  | n + 1, d => if d = root then [] else d :: specAncestorsBetween root n (goDir d)

/-- Modelled from the spec: the set of base names of the matched paths
together with the base names of all distinct ancestor directories
strictly between each path and the root (spec section 8). -/
def specBaseNames (root : String) (paths : List String) : Finset String :=
  (paths.map goBase).toFinset ∪
    (paths.flatMap (fun p =>
      (specAncestorsBetween root (p.length + 2) (goDir p)).map goBase)).toFinset

/-- The ancestor paths strictly between the root and the path whose
reversed segment list is given (deepest first). -/
def midPathsR (root : String) : List (List Char) → List String
  | [] => []
  | [_] => []
  | _ :: r₂ :: rest =>
    ⟨root.data ++ '/' :: joinSegs ((r₂ :: rest).reverse)⟩ :: midPathsR root (r₂ :: rest)

theorem midPathsR_shape {root : String} :
    ∀ (rs : List (List Char)), (∀ s ∈ rs, wfSeg s = true) →
    ∀ x ∈ midPathsR root rs, ∃ g, g ≠ [] ∧ (∀ s ∈ g, wfSeg s = true) ∧
      x = ⟨root.data ++ '/' :: joinSegs g⟩ := by
  intro rs
  induction rs with
  | nil => intro _ x hx; simp [midPathsR] at hx
  | cons r rest ih =>
    intro hwf x hx
    cases rest with
    | nil => simp [midPathsR] at hx
    | cons r₂ rest₂ =>
      rw [show midPathsR root (r :: r₂ :: rest₂) =
        ⟨root.data ++ '/' :: joinSegs ((r₂ :: rest₂).reverse)⟩ ::
          midPathsR root (r₂ :: rest₂) from rfl] at hx
      rcases List.mem_cons.mp hx with hx | hx
      · refine ⟨(r₂ :: rest₂).reverse, by simp, fun t ht => hwf t ?_, hx⟩
        exact List.mem_cons_of_mem r (List.mem_reverse.mp ht)
      · exact ih (fun t ht => hwf t (List.mem_cons_of_mem r ht)) x hx

/-- The renderer's ancestor loop on a path strictly under the root walks
exactly the ancestors strictly between the path and the root. -/
theorem ancestorListP_chain {root : String} (hr : cleanAbs root = true) (hs : root ≠ "/") :
    ∀ (rs : List (List Char)), rs ≠ [] → (∀ s ∈ rs, wfSeg s = true) →
    ∀ fuel, rs.length ≤ fuel →
      ancestorListP root fuel (goDir ⟨root.data ++ '/' :: joinSegs rs.reverse⟩) =
        midPathsR root rs := by
  intro rs
  induction rs with
  | nil => intro h; exact absurd rfl h
  | cons r rest ih =>
    intro _ hwf fuel hfuel
    cases rest with
    | nil =>
      rw [show (([r] : List (List Char)).reverse) = [r] from rfl,
        goDir_under_step hr hs [r] (by simp) (by simpa using hwf),
        if_pos (by simp)]
      cases fuel with
      | zero => rfl
      | succ n =>
        show ancestorListP root (n + 1) root = midPathsR root [r]
        unfold ancestorListP
        rw [if_neg (by simp)]
        rfl
    | cons r₂ rest₂ =>
      have hrev : (r :: r₂ :: rest₂).reverse = (r₂ :: rest₂).reverse ++ [r] := by simp
      rw [hrev, goDir_under_step hr hs _ (by simp)
          (fun t ht => hwf t (by
            rcases List.mem_append.mp ht with hx | hx
            · exact List.mem_cons_of_mem r (List.mem_reverse.mp hx)
            · simp only [List.mem_singleton] at hx
              subst hx
              simp)),
        if_neg (by simp [List.length_append]), List.dropLast_concat]
      cases fuel with
      | zero => simp at hfuel
      | succ n =>
        unfold ancestorListP
        rw [if_pos ?hcond]
        case hcond =>
          obtain ⟨h1, h2, h3⟩ := under_ne hr (g := (r₂ :: rest₂).reverse)
          exact ⟨h1, h2, h3⟩
        rw [ih (by simp) (fun t ht => hwf t (List.mem_cons_of_mem r ht)) n (by
          simp only [List.length_cons] at hfuel ⊢
          omega)]
        rfl

/-- The ancestor walk described by the spec on a path strictly under the
root is the same chain. -/
theorem specAncestorsBetween_chain {root : String} (hr : cleanAbs root = true)
    (hs : root ≠ "/") :
    ∀ (rs : List (List Char)), rs ≠ [] → (∀ s ∈ rs, wfSeg s = true) →
    ∀ fuel, rs.length ≤ fuel →
      specAncestorsBetween root fuel (goDir ⟨root.data ++ '/' :: joinSegs rs.reverse⟩) =
        midPathsR root rs := by
  intro rs
  induction rs with
  | nil => intro h; exact absurd rfl h
  | cons r rest ih =>
    intro _ hwf fuel hfuel
    cases rest with
    | nil =>
      rw [show (([r] : List (List Char)).reverse) = [r] from rfl,
        goDir_under_step hr hs [r] (by simp) (by simpa using hwf),
        if_pos (by simp)]
      cases fuel with
      | zero => rfl
      | succ n =>
        show specAncestorsBetween root (n + 1) root = midPathsR root [r]
        unfold specAncestorsBetween
        rw [if_pos rfl]
        rfl
    | cons r₂ rest₂ =>
      have hrev : (r :: r₂ :: rest₂).reverse = (r₂ :: rest₂).reverse ++ [r] := by simp
      rw [hrev, goDir_under_step hr hs _ (by simp)
          (fun t ht => hwf t (by
            rcases List.mem_append.mp ht with hx | hx
            · exact List.mem_cons_of_mem r (List.mem_reverse.mp hx)
            · simp only [List.mem_singleton] at hx
              subst hx
              simp)),
        if_neg (by simp [List.length_append]), List.dropLast_concat]
      cases fuel with
      | zero => simp at hfuel
      | succ n =>
        unfold specAncestorsBetween
        rw [if_neg (under_ne hr (g := (r₂ :: rest₂).reverse)).1]
        rw [ih (by simp) (fun t ht => hwf t (List.mem_cons_of_mem r ht)) n (by
          simp only [List.length_cons] at hfuel ⊢
          omega)]
        rfl

theorem charListLe_self_append : ∀ (l m : List Char), charListLe l (l ++ m) = true := by
  intro l m
  induction l with
  | nil => rfl
  | cons a as ih =>
    rw [List.cons_append]
    unfold charListLe
    rw [if_neg (lt_irrefl a), if_neg (lt_irrefl a)]
    exact ih

theorem charListLe_append_ne : ∀ (l m : List Char), m ≠ [] → charListLe (l ++ m) l = false := by
  intro l
  induction l with
  | nil =>
    intro m hm
    cases m with
    | nil => exact absurd rfl hm
    | cons c cs => rfl
  | cons a as ih =>
    intro m hm
    rw [List.cons_append]
    unfold charListLe
    rw [if_neg (lt_irrefl a), if_neg (lt_irrefl a)]
    exact ih m hm

/-- When `Rel` succeeds on every entry, the rendered labels are exactly
the base names, in order. -/
theorem renderedNames_map {root : String} :
    ∀ (l : List String), (∀ x ∈ l, ∃ r, goRel root x = Except.ok r) →
      renderedNames root l = l.map goBase := by
  intro l
  induction l with
  | nil => intro _; rfl
  | cons x xs ih =>
    intro h
    obtain ⟨r, hr⟩ := h x (by simp)
    unfold renderedNames
    rw [hr, ih (fun y hy => h y (List.mem_cons_of_mem x hy))]
    rfl

theorem ancestorListP_of_under {root : String} (hr : cleanAbs root = true) (hs : root ≠ "/")
    {segs : List (List Char)} (hg : segs ≠ []) (hwf : ∀ s ∈ segs, wfSeg s = true)
    {fuel : Nat} (hfuel : segs.length ≤ fuel) :
    ancestorListP root fuel (goDir ⟨root.data ++ '/' :: joinSegs segs⟩) =
      midPathsR root segs.reverse := by
  have h := ancestorListP_chain hr hs segs.reverse (by simpa using hg)
    (fun t ht => hwf t (List.mem_reverse.mp ht)) fuel (by simpa using hfuel)
  rwa [List.reverse_reverse] at h

theorem specAncestorsBetween_of_under {root : String} (hr : cleanAbs root = true)
    (hs : root ≠ "/")
    {segs : List (List Char)} (hg : segs ≠ []) (hwf : ∀ s ∈ segs, wfSeg s = true)
    {fuel : Nat} (hfuel : segs.length ≤ fuel) :
    specAncestorsBetween root fuel (goDir ⟨root.data ++ '/' :: joinSegs segs⟩) =
      midPathsR root segs.reverse := by
  have h := specAncestorsBetween_chain hr hs segs.reverse (by simpa using hg)
    (fun t ht => hwf t (List.mem_reverse.mp ht)) fuel (by simpa using hfuel)
  rwa [List.reverse_reverse] at h

theorem under_length_fuel {root : String} {segs : List (List Char)}
    (hwf : ∀ s ∈ segs, wfSeg s = true) :
    segs.length ≤ (⟨root.data ++ '/' :: joinSegs segs⟩ : String).length + 2 := by
  have h1 := joinSegs_length_ge segs hwf
  show segs.length ≤ (root.data ++ '/' :: joinSegs segs).length + 2
  simp only [List.length_append, List.length_cons]
  omega

/-- C7 (amended): for a cleaned absolute root other than `/` and matched
paths strictly under it built from well-formed segments, the set of base
names appearing in the output of `buildTreeOutput` equals the root's own
base name together with the base names of the matched paths and of all
distinct ancestor directories strictly between each matched path and the
root — the root's base name heads the output and is not accounted for by
the path-and-ancestor set alone. -/
theorem c7_output_base_names (root : String) (paths : List String)
    (hr : cleanAbs root = true) (hs : root ≠ "/") (hne : paths ≠ [])
    (hshape : ∀ p ∈ paths, ∃ segs, segs ≠ [] ∧ (∀ s ∈ segs, wfSeg s = true) ∧
      p = ⟨root.data ++ '/' :: joinSegs segs⟩) :
    outputBaseNames root paths = insert (goBase root) (specBaseNames root paths) := by
  have hanc : ∀ p ∈ paths, ancestorListP root (p.length + 2) (goDir p) =
      specAncestorsBetween root (p.length + 2) (goDir p) := by
    intro p hp
    obtain ⟨segs, hg, hwf, hp2⟩ := hshape p hp
    subst hp2
    rw [ancestorListP_of_under hr hs hg hwf (under_length_fuel hwf),
      specAncestorsBetween_of_under hr hs hg hwf (under_length_fuel hwf)]
  have hunder : ∀ x ∈ nodeKeys root paths, x = root ∨
      ∃ g, g ≠ [] ∧ (∀ s ∈ g, wfSeg s = true) ∧
        x = ⟨root.data ++ '/' :: joinSegs g⟩ := by
    intro x hx
    rcases mem_nodeKeys.mp hx with h | ⟨p, hp, hpre, hx2⟩
    · exact Or.inl h
    · right
      obtain ⟨segs, hg, hwf, hp2⟩ := hshape p hp
      subst hp2
      rcases hx2 with h | hx2
      · exact ⟨segs, hg, hwf, h⟩
      · rw [ancestorListP_of_under hr hs hg hwf (under_length_fuel hwf)] at hx2
        exact midPathsR_shape segs.reverse
          (fun t ht => hwf t (List.mem_reverse.mp ht)) x hx2
  have hperm : List.Perm (sortedNodes root paths) (nodeKeys root paths) :=
    List.perm_insertionSort strLe _
  have hnodup : (sortedNodes root paths).Nodup := hperm.nodup_iff.mpr nodup_nodeKeys
  have hsorted : List.Sorted strLe (sortedNodes root paths) :=
    List.sorted_insertionSort strLe _
  have hroot_mem : root ∈ sortedNodes root paths :=
    hperm.mem_iff.mpr (mem_nodeKeys.mpr (Or.inl rfl))
  obtain ⟨tail, htail⟩ : ∃ u, sortedNodes root paths = root :: u := by
    cases hsn : sortedNodes root paths with
    | nil =>
      rw [hsn] at hroot_mem
      simp at hroot_mem
    | cons h₀ t₀ =>
      by_cases hh : h₀ = root
      · exact ⟨t₀, by rw [hh]⟩
      · exfalso
        have hh₀_mem : h₀ ∈ nodeKeys root paths := hperm.mem_iff.mp (by rw [hsn]; simp)
        rcases hunder h₀ hh₀_mem with h | ⟨g, hg, hwf, hx⟩
        · exact hh h
        · have hroot_t : root ∈ t₀ := by
            rw [hsn] at hroot_mem
            rcases List.mem_cons.mp hroot_mem with h | h
            · exact absurd h.symm hh
            · exact h
          have hle : strLe h₀ root := by
            have h2 := hsorted
            rw [hsn] at h2
            exact (List.sorted_cons.mp h2).1 root hroot_t
          have hfalse : charListLe h₀.data root.data = false := by
            rw [hx]
            show charListLe (root.data ++ '/' :: joinSegs g) root.data = false
            exact charListLe_append_ne root.data ('/' :: joinSegs g) (by simp)
          have h3 : charListLe h₀.data root.data = true := hle
          rw [hfalse] at h3
          exact Bool.noConfusion h3
  have hroot_not_tail : root ∉ tail := by
    have h2 := hnodup
    rw [htail] at h2
    exact (List.nodup_cons.mp h2).1
  have htail_mem : ∀ x, x ∈ tail ↔ (x ∈ nodeKeys root paths ∧ x ≠ root) := by
    intro x
    constructor
    · intro hx
      refine ⟨hperm.mem_iff.mp (by rw [htail]; exact List.mem_cons_of_mem _ hx), ?_⟩
      intro h
      subst h
      exact hroot_not_tail hx
    · rintro ⟨hx, hxr⟩
      have h2 : x ∈ sortedNodes root paths := hperm.mem_iff.mpr hx
      rw [htail] at h2
      rcases List.mem_cons.mp h2 with h | h
      · exact absurd h hxr
      · exact h
  have hmemB : ∀ x, x ∈ tail ↔
      (x ∈ paths ∨ ∃ p ∈ paths,
        x ∈ specAncestorsBetween root (p.length + 2) (goDir p)) := by
    intro x
    rw [htail_mem x, mem_nodeKeys]
    constructor
    · rintro ⟨h | ⟨p, hp, hpre, hx⟩, hxr⟩
      · exact absurd h hxr
      · rcases hx with h | hx
        · exact Or.inl (h ▸ hp)
        · exact Or.inr ⟨p, hp, by rw [← hanc p hp]; exact hx⟩
    · rintro (hx | ⟨p, hp, hx⟩)
      · obtain ⟨segs, hg, hwf, hp2⟩ := hshape x hx
        subst hp2
        refine ⟨Or.inr ⟨_, hx, ?_, Or.inl rfl⟩, (under_ne hr).1⟩
        show root.data.isPrefixOf (root.data ++ '/' :: joinSegs segs) = true
        rw [List.isPrefixOf_iff_prefix]
        exact ⟨'/' :: joinSegs segs, rfl⟩
      · obtain ⟨segs, hg, hwf, hp2⟩ := hshape p hp
        subst hp2
        rw [specAncestorsBetween_of_under hr hs hg hwf (under_length_fuel hwf)] at hx
        obtain ⟨g, hg', hwf', hx2⟩ := midPathsR_shape segs.reverse
          (fun t ht => hwf t (List.mem_reverse.mp ht)) x hx
        refine ⟨Or.inr ⟨_, hp, ?_, Or.inr ?_⟩, ?_⟩
        · show root.data.isPrefixOf (root.data ++ '/' :: joinSegs segs) = true
          rw [List.isPrefixOf_iff_prefix]
          exact ⟨'/' :: joinSegs segs, rfl⟩
        · rw [ancestorListP_of_under hr hs hg hwf (under_length_fuel hwf)]
          exact hx
        · rw [hx2]
          exact (under_ne hr).1
  have hok : ∀ x ∈ tail, ∃ r, goRel root x = Except.ok r := by
    intro x hx
    rcases hunder x ((htail_mem x).mp hx).1 with h | ⟨g, hg, hwf, hx2⟩
    · exact absurd h ((htail_mem x).mp hx).2
    · rw [hx2]
      exact ⟨_, goRel_under hr hs hg hwf⟩
  have hpe : paths.isEmpty = false := by
    cases paths with
    | nil => exact absurd rfl hne
    | cons _ _ => rfl
  have hout : outputBaseNames root paths =
      insert (goBase root) (tail.map goBase).toFinset := by
    unfold outputBaseNames
    rw [if_neg (by simp [hpe]), show (sortedNodes root paths).drop 1 = tail from by
      rw [htail]; rfl, renderedNames_map tail hok]
  rw [hout]
  unfold specBaseNames
  refine congrArg (insert (goBase root)) ?_
  ext x
  simp only [List.mem_toFinset, List.mem_map, Finset.mem_union, List.mem_flatMap]
  constructor
  · rintro ⟨y, hy, rfl⟩
    rcases (hmemB y).mp hy with h | ⟨p, hp, h⟩
    · exact Or.inl ⟨y, h, rfl⟩
    · exact Or.inr ⟨p, hp, y, h, rfl⟩
  · rintro (⟨p, hp, rfl⟩ | ⟨p, hp, y, hy, rfl⟩)
    · exact ⟨p, (hmemB p).mpr (Or.inl hp), rfl⟩
    · exact ⟨y, (hmemB y).mpr (Or.inr ⟨p, hp, hy⟩), rfl⟩

/-- C7 counterexample: the rendered output always begins with the root's
base name, which the claimed path-plus-ancestors set does not contain:
for root `/r` and single matched path `/r/a.go` (no ancestors strictly
between), the output base names are `r` and `a.go` while the claimed set
is just `a.go`. -/
theorem c7_counterexample :
    outputBaseNames "/r" ["/r/a.go"] = ({"r", "a.go"} : Finset String) ∧
    specBaseNames "/r" ["/r/a.go"] = ({"a.go"} : Finset String) ∧
    outputBaseNames "/r" ["/r/a.go"] ≠ specBaseNames "/r" ["/r/a.go"] :=
  ⟨by decide, by decide, by decide⟩

/-- Witness for C7: the amended round-trip equality applied at a concrete
root and path list (one nested path contributing the ancestor `sub`). -/
theorem c7_output_base_names_witness :
    cleanAbs "/r" = true ∧ ("/r" : String) ≠ "/" ∧
    (["/r/a.go", "/r/sub/b.js"] : List String) ≠ [] ∧
    outputBaseNames "/r" ["/r/a.go", "/r/sub/b.js"] =
      insert (goBase "/r") (specBaseNames "/r" ["/r/a.go", "/r/sub/b.js"]) :=
  ⟨by decide, by decide, by decide,
   c7_output_base_names "/r" ["/r/a.go", "/r/sub/b.js"] (by decide) (by decide) (by decide)
     (by
       intro p hp
       rcases List.mem_cons.mp hp with h | hp
       · exact ⟨[['a', '.', 'g', 'o']], by decide, by decide, by rw [h]; decide⟩
       rcases List.mem_cons.mp hp with h | hp
       · exact ⟨[['s', 'u', 'b'], ['b', '.', 'j', 's']], by decide, by decide,
           by rw [h]; decide⟩
       · simp at hp)⟩

end Wintree

